import Mathlib

/-!
A verification development for the FIDE ratings utility
(`src/index.mjs`).  JavaScript strings are modelled as `List Char`;
the JS regex scan, substring clamping, `indexOf`, `trim`,
`split(/\s+/)`, the fixed-width row decoder, the federation
partitioner, the CSV emitter and `formatBytes` are embedded as
executable Lean functions, and the spec's properties are proved or
refuted about them.
-/

namespace FideRatings

/-- JavaScript strings modelled as lists of characters. -/
abbrev JStr := List Char

/-- The character class of the JS regex `\s` (whitespace), restricted to
the code points that actually occur: ASCII whitespace plus the Unicode
space characters JS includes. -/
def jsWs (c : Char) : Bool :=
  c = ' ' || c = '\t' || c = '\n' || c.val = 11 || c.val = 12 || c = '\r' ||
  c.val = 0xa0 || c.val = 0x1680 || (0x2000 ≤ c.val && c.val ≤ 0x200a) ||
  c.val = 0x2028 || c.val = 0x2029 || c.val = 0x202f || c.val = 0x205f ||
  c.val = 0x3000 || c.val = 0xfeff

/-- `String.prototype.trim`: strip whitespace from both ends. -/
def jsTrim (s : JStr) : JStr :=
  ((s.dropWhile jsWs).reverse.dropWhile jsWs).reverse

/-- `String.prototype.substring(a, b)` with `Nat` arguments: both indices
are clamped to `[0, length]` and swapped if out of order. -/
def jsSubstringN (s : JStr) (a b : Nat) : JStr :=
  let a' := min a s.length
  let b' := min b s.length
  (s.take (max a' b')).drop (min a' b')

/-- `String.prototype.substring(a, b)` with `Int` arguments (JS clamps
negative indices to 0). -/
def jsSubstringI (s : JStr) (a b : Int) : JStr :=
  let n : Int := s.length
  let a' := max 0 (min a n)
  let b' := max 0 (min b n)
  ((s.take (max a' b').toNat).drop (min a' b').toNat)

/-- First index at which `pat` occurs in `l`, if any
(`String.prototype.indexOf` before the `-1` encoding). -/
def findIndexOf : JStr → JStr → Option Nat
  | l, pat =>
    if pat.isPrefixOf l then some 0
    else match l with
      | [] => none
      | _ :: r => (findIndexOf r pat).map (· + 1)

/-- `String.prototype.indexOf`: `-1` when the pattern does not occur. -/
def jsIndexOf (l pat : JStr) : Int :=
  match findIndexOf l pat with
  | some i => (i : Int)
  | none => -1

/-- Worker for `split(/\s+/)`.  The state is `some cur` while building a
field (characters accumulated in reverse) and `none` while inside a
whitespace run whose preceding field has already been emitted. -/
def splitWsGo : JStr → Option JStr → List JStr
  | [], some cur => [cur.reverse]
  | [], none => [[]]
  | c :: r, some cur =>
      if jsWs c then cur.reverse :: splitWsGo r none
      else splitWsGo r (some (c :: cur))
  | c :: r, none =>
      if jsWs c then splitWsGo r none
      else splitWsGo r (some [c])

/-- `String.prototype.split(/\s+/)`: fields between maximal whitespace
runs, with an empty leading (resp. trailing) field when the string
starts (resp. ends) with whitespace, and `[""]` on the empty string. -/
def jsSplitWs (s : JStr) : List JStr :=
  splitWsGo s (some [])

/-- `Array.prototype.join(' ')`. -/
def joinSp : List JStr → JStr
  | [] => []
  | [v] => v
  | v :: vs => v ++ ' ' :: joinSp vs

/-- `Array.prototype.join(',')`. -/
def joinComma : List JStr → JStr
  | [] => []
  | [v] => v
  | v :: vs => v ++ ',' :: joinComma vs

/-! ## Column Layout Extractor

The header is scanned with the sticky regex
`/(\S[\S ]*?)(?=\s{2,}|$)/g` (`index.mjs` lines 90–98): a token starts
at a non-whitespace character, lazily extends over characters matching
`[\S ]`, and ends where the lookahead `\s{2,}|$` holds.  Matched labels
are trimmed and pushed together with their match index; finally the
header length is appended to the position list. -/

/-- The lookahead `(?=\s{2,}|$)`: holds at a position when the string
ends there or the next two characters are both whitespace. -/
def lookahead2 : JStr → Bool
  | [] => true
  | [_] => false
  | a :: b :: _ => jsWs a && jsWs b

/-- Lazy extension of `[\S ]*?` under the lookahead: the number of
additional characters the quantifier consumes, or `none` when the match
attempt fails (a whitespace character other than a plain space is hit
before the lookahead ever holds). -/
def extendTok : JStr → Option Nat
  | [] => some 0
  | c :: r =>
    if lookahead2 (c :: r) then some 0
    else if !jsWs c || c = ' ' then (extendTok r).map (· + 1) else none

/-- Fuel-indexed worker for the global regex scan.  Each step consumes
at least one character, so any fuel of at least the string length gives
the scan's true value. -/
def colScanF : Nat → JStr → Nat → List (JStr × Nat)
  | 0, _, _ => []
  | _ + 1, [], _ => []
  | fuel + 1, c :: r, pos =>
    if jsWs c then colScanF fuel r (pos + 1)
    else
      match extendTok r with
      | none => colScanF fuel r (pos + 1)
      | some k =>
          (jsTrim (c :: r.take k), pos) :: colScanF fuel (r.drop k) (pos + 1 + k)

/-- The global regex scan over the header: at each position, whitespace
characters and failed match attempts advance the scan by one; a
successful match at absolute position `pos` of length `k + 1` emits the
trimmed token with its index and resumes after the match. -/
def colScan (l : JStr) (pos : Nat) : List (JStr × Nat) :=
  colScanF l.length l pos

/-- The `columns` array of the source: trimmed labels in match order. -/
def columnsOf (header : JStr) : List JStr :=
  (colScan header 0).map (·.1)

/-- The `colPositions` array of the source: match indices with the
header length appended. -/
def colPositionsOf (header : JStr) : List Nat :=
  (colScan header 0).map (·.2) ++ [header.length]

/-- The Layout: `(label, start, end)` triples, where each column's end
offset is the next column's start offset and the final end offset is
the header length. -/
def layoutOf (header : JStr) : List (JStr × Nat × Nat) :=
  let sc := colScan header 0
  let ends := ((sc.map (·.2)).tail) ++ [header.length]
  (sc.zip ends).map (fun p => (p.1.1, p.1.2, p.2))

/-! ## Spec-side reference for the Column Layout Extractor

The spec describes the labels as "maximal non-separator tokens", where
a separator is a run of two or more consecutive *space characters* and
single embedded spaces are kept inside a label. -/

/-- Take the maximal token prefix: consume characters until a run of two
spaces (or the end of the string) is reached. -/
def grabTok : JStr → JStr × JStr
  | [] => ([], [])
  | [c] => ([c], [])
  | c :: d :: r =>
    if c = ' ' ∧ d = ' ' then ([], c :: d :: r)
    else
      let p := grabTok (d :: r)
      (c :: p.1, p.2)

/-- Fuel-indexed worker for the spec-side tokenizer. -/
def refTokensF : Nat → JStr → Nat → List (JStr × Nat)
  | 0, _, _ => []
  | _ + 1, [], _ => []
  | fuel + 1, c :: r, pos =>
    if c = ' ' then refTokensF fuel r (pos + 1)
    else
      (jsTrim (grabTok (c :: r)).1, pos) ::
        refTokensF fuel ((grabTok (c :: r)).2) (pos + (grabTok (c :: r)).1.length)

/-- Spec-side tokenizer: maximal non-separator tokens (separator = run
of two or more spaces), each trimmed, with its start offset being the
position of its first character. -/
def refTokens (l : JStr) (pos : Nat) : List (JStr × Nat) :=
  refTokensF l.length l pos

/-- Whether a string contains two consecutive space characters (the
hypothesis of the layout claim). -/
def hasDoubleSpace : JStr → Bool
  | [] => false
  | [_] => false
  | c :: d :: r => (c = ' ' && d = ' ') || hasDoubleSpace (d :: r)

/-- Fuel-indexed worker for the spec-side word splitter. -/
def wsTokensF : Nat → JStr → List JStr
  | 0, _ => []
  | _ + 1, [] => []
  | fuel + 1, c :: r =>
    if jsWs c then wsTokensF fuel r
    else (c :: r.takeWhile (fun x => !jsWs x)) ::
      wsTokensF fuel (r.dropWhile (fun x => !jsWs x))

/-- Spec-side word splitter: the whitespace-separated tokens of a
string (maximal runs of non-whitespace characters), with no empty
tokens. -/
def wsTokens (l : JStr) : List JStr :=
  wsTokensF l.length l

/-! ## Records (JS objects with string keys and values)

A `Record` is an association list in insertion order; `obj[k] = v`
overwrites in place when the key exists and appends otherwise, exactly
like a JS object with non-index string keys. -/

abbrev Record := List (JStr × JStr)

/-- JS object assignment `obj[k] = v`. -/
def objSet (o : Record) (k v : JStr) : Record :=
  if o.any (fun p => p.1 = k) then
    o.map (fun p => if p.1 = k then (k, v) else p)
  else o ++ [(k, v)]

/-- JS property read `obj[k] ?? d`. -/
def objGetD (o : Record) (k : JStr) (d : JStr) : JStr :=
  match o.find? (fun p => p.1 = k) with
  | some p => p.2
  | none => d

/-! ## Row Decoder

`index.mjs` lines 100–133: for each column, slice the line between the
column's start and end offset, trim, and apply the compound-column
rules keyed on the original (trimmed) header label. -/

/-- Decode one column's sliced-and-trimmed value into the record,
following the per-label branches of the source. -/
def decodeCell (obj : Record) (lbl : JStr) (value : JStr) : Record :=
  if lbl = "Fed Sex Tit".data then
    let fed := jsTrim (jsSubstringN value 0 3)
    let rest := jsTrim (jsSubstringN value 3 value.length)
    let toks := jsSplitWs rest
    objSet (objSet (objSet obj "Fed".data fed) "Sex".data (toks.getD 0 []))
      "Title".data (joinSp toks.tail)
  else if lbl = "WTit OTit".data then
    let toks := jsSplitWs value
    objSet (objSet obj "WTit".data (toks.getD 0 [])) "OTit".data (toks.getD 1 [])
  else if "FOA AUG".data.isPrefixOf lbl then
    let headerParts := jsSplitWs lbl
    let toks := jsSplitWs value
    objSet (objSet (objSet (objSet obj "FOA".data (toks.getD 0 []))
      "Rating".data (headerParts.getD 1 [])) "Gms".data (toks.getD 1 []))
      "K".data (toks.getD 2 [])
  else if lbl = "B-day Flag".data then
    let toks := jsSplitWs value
    objSet (objSet obj "B-day".data (toks.getD 0 [])) "Flag".data (joinSp toks.tail)
  else objSet obj lbl value

/-- Decode a whole line against a Layout. -/
def decodeLine (layout : List (JStr × Nat × Nat)) (line : JStr) : Record :=
  layout.foldl
    (fun obj col => decodeCell obj col.1 (jsTrim (jsSubstringN line col.2.1 col.2.2)))
    []

/-! ## Partitioner

`index.mjs` lines 42–52: the key slice range is located by searching
the header for the label text `'Fed'` (`indexOf`, `-1` when absent) and
spans the label's own three characters; lines with a blank key are
skipped; other lines are appended to their key's group. -/

/-- The key extracted from a line (`line.substring(fedStart, fedEnd).trim()`). -/
def fedKeyOf (header line : JStr) : JStr :=
  let fedStart : Int := jsIndexOf header "Fed".data
  jsTrim (jsSubstringI line fedStart (fedStart + 3))

/-- `if (!fedMap[fed]) fedMap[fed] = []; fedMap[fed].push(line)`. -/
def addLine (m : List (JStr × List JStr)) (k : JStr) (line : JStr) :
    List (JStr × List JStr) :=
  if m.any (fun p => p.1 = k) then
    m.map (fun p => if p.1 = k then (p.1, p.2 ++ [line]) else p)
  else m ++ [(k, [line])]

/-- One iteration of the grouping loop. -/
def fedStep (header : JStr) (m : List (JStr × List JStr)) (line : JStr) :
    List (JStr × List JStr) :=
  if fedKeyOf header line = [] then m else addLine m (fedKeyOf header line) line

/-- The `fedMap` object: groups in key-insertion order. -/
def fedMapOf (header : JStr) (dataLines : List JStr) : List (JStr × List JStr) :=
  dataLines.foldl (fedStep header) []

/-- The group stored under key `k` (empty when the key is absent): the
read `fedMap[fed]` of the source. -/
def grpOf (m : List (JStr × List JStr)) (k : JStr) : List JStr :=
  ((m.find? (fun p => p.1 = k)).map (fun p => p.2)).getD []

/-- Whether the group map has key `k`. -/
def hasGrp (m : List (JStr × List JStr)) (k : JStr) : Bool :=
  m.any (fun p => p.1 = k)

/-! ## CSV emitter (`index.mjs` lines 147–156) and a spec-side reader -/

/-- `val.replace(/"/g, '""')`. -/
def dupQuotes : JStr → JStr
  | [] => []
  | c :: r => if c = '"' then '"' :: '"' :: dupQuotes r else c :: dupQuotes r

/-- Quote a CSV value when it contains a comma, a double quote or a
newline, doubling internal quotes. -/
def csvEscape (v : JStr) : JStr :=
  if v.contains ',' || v.contains '"' || v.contains '\n' then
    '"' :: (dupQuotes v ++ ['"'])
  else v

/-- One emitted CSV data row: escaped values joined with commas. -/
def csvEmitRow (vals : List JStr) : JStr :=
  joinComma (vals.map csvEscape)

/-- Spec-side quoted-field reader: consumes characters after an opening
quote up to the closing quote, decoding doubled quotes, and returns the
field together with the remainder after the closing quote. -/
def csvParseQ : JStr → JStr × JStr
  | [] => ([], [])
  | [c] => if c = '"' then ([], []) else ([c], [])
  | c :: d :: r =>
    if c = '"' then
      if d = '"' then
        let p := csvParseQ r
        ('"' :: p.1, p.2)
      else ([], d :: r)
    else
      let p := csvParseQ (d :: r)
      (c :: p.1, p.2)

/-- Fuel-indexed worker for the spec-side row reader. -/
def csvParseRowF : Nat → JStr → List JStr
  | 0, _ => []
  | _ + 1, [] => [[]]
  | fuel + 1, c :: r =>
    if c = '"' then
      let p := csvParseQ r
      if p.2.head? = some ',' then p.1 :: csvParseRowF fuel p.2.tail else [p.1]
    else
      let rem := (c :: r).dropWhile (fun x => !(x = ','))
      if rem = [] then [(c :: r).takeWhile (fun x => !(x = ','))]
      else (c :: r).takeWhile (fun x => !(x = ',')) :: csvParseRowF fuel rem.tail

/-- Spec-side row reader: split a CSV row on commas, honoring quoting
(a field starting with a double quote is read by `csvParseQ`). -/
def csvParseRow (l : JStr) : List JStr :=
  csvParseRowF (l.length + 1) l

/-! ## formatBytes (`index.mjs` lines 7–13)

The code computes `i = Math.floor(Math.log(bytes)/Math.log(1024))`,
scales, and prints with `toFixed(value >= 10 || i === 0 ? 0 : 1)` and
unit `units[i]` (which is the string `"undefined"` past the end of the
unit list).  The logarithm step is double-precision floating point,
and near powers of 1024 its floor differs from the exact logarithm's:
at byte counts 1024^5 − 1, 1024^5 − 2 and 1024^5 − 3 the quotient of
doubles evaluates to exactly 5.0, so the program computes unit index 5
and prints `"1.0 undefined"`, although the exact base-1024 logarithm of
those counts has floor 4.  That step therefore does not embed as an
arithmetic function of `n`; it is kept as an explicit unit-index
parameter `i` in `formatBytesIdx`, the embedding of everything after
the logarithm.  From `i` on the JS arithmetic is exact for the byte
counts involved: `bytes / Math.pow(1024, i)` only shifts the exponent
of a double (exact for counts below 2^53), the `>= 10` comparison is
exact, and `toFixed` rounds the exact dyadic value half up, embedded as
the integer renderings `(2n+d)/(2d)` and `(20n+d)/(2d)` of `n/d` to
zero and one decimal place. -/

/-- The embedded body of `formatBytes` after the logarithm step, with
the unit index `i` that step computed passed in as a parameter. -/
def formatBytesIdx (i n : Nat) : String :=
  let d := 1024 ^ i
  let unit := ["B", "KB", "MB", "GB", "TB"].getD i "undefined"
  if 10 * d ≤ n ∨ i = 0 then
    toString ((2 * n + d) / (2 * d)) ++ " " ++ unit
  else
    let m := (20 * n + d) / (2 * d)
    toString (m / 10) ++ "." ++ toString (m % 10) ++ " " ++ unit

/-- The embedded `formatBytes`, reading the floating-point logarithm
step as the exact `Nat.log` — an idealisation that is wrong at the
near-boundary counts noted above, so theorems about the unit index are
stated over `formatBytesIdx` with the index universally quantified
rather than over this composition. -/
def formatBytes (n : Nat) : String :=
  if n = 0 then "0 B" else formatBytesIdx (Nat.log 1024 n) n

/-- The claim's reading of the decimal-places rule at unit index `i`:
zero decimals when the scaled value ROUNDS to at least 10 of its unit
(i.e. the one-decimal rendering would be at least 10.0), or when the
unit is bytes. -/
def claimFormatBytesIdx (i n : Nat) : String :=
  let d := 1024 ^ i
  let unit := ["B", "KB", "MB", "GB", "TB"].getD i "undefined"
  if 100 ≤ (20 * n + d) / (2 * d) ∨ i = 0 then
    toString ((2 * n + d) / (2 * d)) ++ " " ++ unit
  else
    let m := (20 * n + d) / (2 * d)
    toString (m / 10) ++ "." ++ toString (m % 10) ++ " " ++ unit

/-- The claim's reading of the decimal-places rule, with the same
exact-logarithm reading of the unit index as `formatBytes`. -/
def claimFormatBytes (n : Nat) : String :=
  if n = 0 then "0 B" else claimFormatBytesIdx (Nat.log 1024 n) n

/-- Round half up of a nonnegative rational. -/
def rhu (q : ℚ) : Nat := ⌊q + 1 / 2⌋₊

/-- The amended specification of the post-logarithm body, written over
exact rationals: at unit index `i`, zero decimal places when the scaled
value `n / 1024 ^ i` is at least 10 before rounding or the unit is
bytes, one decimal place otherwise, rendering by round half up, with
unit the `i`-th entry of B/KB/MB/GB/TB and the string `"undefined"`
past the end of that list. -/
def specFormatBytesIdx (i n : Nat) : String :=
  let value : ℚ := (n : ℚ) / (1024 : ℚ) ^ i
  let unit := ["B", "KB", "MB", "GB", "TB"].getD i "undefined"
  if 10 ≤ value ∨ i = 0 then
    toString (rhu value) ++ " " ++ unit
  else
    let m := rhu (10 * value)
    toString (m / 10) ++ "." ++ toString (m % 10) ++ " " ++ unit

/-! ## Per-group emission (`index.mjs` lines 60–215)

The loop body writes the TXT, JSON, CSV artifacts and their zips, then
attempts the Parquet export inside a `try`/`catch` whose failure is
only logged, and finally records the group's summary entry.  The file
system is modelled by keeping each artifact's content; an artifact's
recorded size is the formatted length of its modelled content.  The
Parquet writer is an external library call, modelled by an oracle that
either returns the written file's size or throws. -/

/-- The summary entry recorded for one group and rating type. -/
structure SummaryEntry where
  count : Nat
  txtSize : String
  txtzipSize : String
  jsonSize : String
  jsonzipSize : String
  csvSize : String
  csvzipSize : String
  parquetSize : String
  deriving DecidableEq

/-- `[header, ...fedLines].join('\n')`. -/
def joinNL : List JStr → JStr
  | [] => []
  | [v] => v
  | v :: vs => v ++ '\n' :: joinNL vs

/-- The emitted CSV rows: the unescaped column-name header row followed
by one escaped row per record, reading each column with `row[col] ?? ''`. -/
def csvRowsOf (cols : List JStr) (rows : List Record) : List JStr :=
  joinComma cols ::
    rows.map (fun row => csvEmitRow (cols.map (fun col => objGetD row col [])))

/-- A size model for the structured (JSON) export: total size of keys
and values. -/
def recordsSize (rows : List Record) : Nat :=
  (rows.map (fun r => (r.map (fun kv => kv.1.length + kv.2.length)).sum)).sum

/-- All artifacts and the summary entry produced for one group. -/
structure GroupArtifacts where
  txt : JStr
  txtZipEntry : JStr × JStr
  json : List Record
  jsonZipEntry : JStr × List Record
  csv : Option (List JStr)
  csvZipEntry : Option (JStr × List JStr)
  parquet : Option (List Record)
  summary : SummaryEntry
  deriving DecidableEq

/-- The per-group loop body: produce every artifact, attempting the
Parquet write only when there are rows and recording `'0 B'` when the
oracle throws (the `catch` only logs). -/
def processGroup (header ratingType : JStr) (fedLines : List JStr)
    (parquetResult : Except JStr Nat) : GroupArtifacts :=
  let txtContent := joinNL (header :: fedLines)
  let layout := layoutOf header
  let jsonData := fedLines.map (decodeLine layout)
  let csvColumns := (jsonData.headD []).map (·.1)
  let hasRows := decide (0 < jsonData.length)
  let csv := if hasRows then some (csvRowsOf csvColumns jsonData) else none
  let parquetOk := hasRows && parquetResult.toBool
  { txt := txtContent
    txtZipEntry := (ratingType ++ ".txt".data, txtContent)
    json := jsonData
    jsonZipEntry := (ratingType ++ ".json".data, jsonData)
    csv := csv
    csvZipEntry := csv.map (fun rows => (ratingType ++ ".csv".data, rows))
    parquet := if parquetOk then some jsonData else none
    summary :=
      { count := jsonData.length
        txtSize := formatBytes txtContent.length
        txtzipSize := formatBytes txtContent.length
        jsonSize := formatBytes (recordsSize jsonData)
        jsonzipSize := formatBytes (recordsSize jsonData)
        csvSize := match csv with
          | some rows => formatBytes (joinNL rows).length
          | none => "0 B"
        csvzipSize := match csv with
          | some rows => formatBytes (joinNL rows).length
          | none => "0 B"
        parquetSize := if hasRows then
            match parquetResult with
            | .ok sz => formatBytes sz
            | .error _ => "0 B"
          else "0 B" } }

/-- One dataset pass: group the data lines by federation, then run the
per-group emission loop in the group map's insertion order, consulting
the Parquet oracle for each group. -/
def runDataset (header ratingType : JStr) (dataLines : List JStr)
    (oracle : JStr → Except JStr Nat) : List (JStr × GroupArtifacts) :=
  (fedMapOf header dataLines).map
    (fun g => (g.1, processGroup header ratingType g.2 (oracle g.1)))

/-- The parquet-independent view of a group's outputs. -/
def coreView (a : GroupArtifacts) :
    JStr × (JStr × JStr) × List Record × (JStr × List Record) ×
      Option (List JStr) × Option (JStr × List JStr) ×
      (Nat × String × String × String × String × String × String) :=
  (a.txt, a.txtZipEntry, a.json, a.jsonZipEntry, a.csv, a.csvZipEntry,
    (a.summary.count, a.summary.txtSize, a.summary.txtzipSize, a.summary.jsonSize,
      a.summary.jsonzipSize, a.summary.csvSize, a.summary.csvzipSize))

/-- Listing-page order: `Object.keys(summary).sort()`
(`index.mjs` line 229), i.e. the group keys sorted lexicographically at
emission time. -/
def indexFeds (summary : List (JStr × SummaryEntry)) : List JStr :=
  (summary.map (·.1)).insertionSort (· ≤ ·)


/-! ## Helper lemmas -/

theorem grabTok_append : ∀ l : JStr, (grabTok l).1 ++ (grabTok l).2 = l
  | [] => rfl
  | [c] => rfl
  | c :: d :: r => by
    simp only [grabTok]
    split
    · rfl
    · simpa using grabTok_append (d :: r)

theorem grabTok_snd_length_le : ∀ l : JStr, (grabTok l).2.length ≤ l.length
  | [] => Nat.le_refl _
  | [_] => by simp [grabTok]
  | c :: d :: r => by
    simp only [grabTok]
    split
    · simp
    · simpa using Nat.le_succ_of_le (grabTok_snd_length_le (d :: r))

theorem grabTok_snd_lt (c : Char) (r : JStr) (h : ¬ c = ' ') :
    (grabTok (c :: r)).2.length < (c :: r).length := by
  cases r with
  | nil => simp [grabTok]
  | cons d r' =>
    simp only [grabTok]
    rw [if_neg (by tauto)]
    simpa using Nat.lt_succ_of_le (grabTok_snd_length_le (d :: r'))

theorem colScanF_nil (fuel pos : Nat) : colScanF fuel [] pos = [] := by
  cases fuel <;> rfl

theorem colScanF_irrel :
    ∀ (fuel fuel' : Nat) (l : JStr) (pos : Nat), l.length ≤ fuel → l.length ≤ fuel' →
    colScanF fuel l pos = colScanF fuel' l pos := by
  intro fuel
  induction fuel with
  | zero =>
    intro fuel' l pos hl _
    have : l = [] := List.length_eq_zero.mp (Nat.le_zero.mp hl)
    subst this
    rw [colScanF_nil, colScanF_nil]
  | succ n ih =>
    intro fuel' l pos hl hl'
    cases l with
    | nil => rw [colScanF_nil, colScanF_nil]
    | cons c r =>
      cases fuel' with
      | zero => exact absurd hl' (by simp)
      | succ m =>
        have hr : r.length ≤ n := by simpa using hl
        have hr' : r.length ≤ m := by simpa using hl'
        simp only [colScanF]
        by_cases hc : jsWs c = true
        · rw [if_pos hc, if_pos hc, ih m r (pos + 1) hr hr']
        · rw [if_neg hc, if_neg hc]
          rcases h : extendTok r with _ | k
          · simp only [h]
            exact ih m r (pos + 1) hr hr'
          · simp only [h]
            rw [ih m (r.drop k) (pos + 1 + k) (le_trans (by simp) hr)
              (le_trans (by simp) hr')]

/-- The one-step unfolding of the regex scan. -/
theorem colScan_cons (c : Char) (r : JStr) (pos : Nat) :
    colScan (c :: r) pos =
      if jsWs c then colScan r (pos + 1)
      else
        match extendTok r with
        | none => colScan r (pos + 1)
        | some k =>
            (jsTrim (c :: r.take k), pos) :: colScan (r.drop k) (pos + 1 + k) := by
  show colScanF (r.length + 1) (c :: r) pos = _
  simp only [colScanF, colScan]
  by_cases hc : jsWs c = true
  · rw [if_pos hc, if_pos hc]
  · rw [if_neg hc, if_neg hc]
    rcases h : extendTok r with _ | k
    · simp only [h]
    · simp only [h]
      rw [colScanF_irrel r.length (r.drop k).length (r.drop k) (pos + 1 + k)
        (by simp) (Nat.le_refl _)]

theorem refTokensF_nil (fuel pos : Nat) : refTokensF fuel [] pos = [] := by
  cases fuel <;> rfl

theorem refTokensF_irrel :
    ∀ (fuel fuel' : Nat) (l : JStr) (pos : Nat), l.length ≤ fuel → l.length ≤ fuel' →
    refTokensF fuel l pos = refTokensF fuel' l pos := by
  intro fuel
  induction fuel with
  | zero =>
    intro fuel' l pos hl _
    have : l = [] := List.length_eq_zero.mp (Nat.le_zero.mp hl)
    subst this
    rw [refTokensF_nil, refTokensF_nil]
  | succ n ih =>
    intro fuel' l pos hl hl'
    cases l with
    | nil => rw [refTokensF_nil, refTokensF_nil]
    | cons c r =>
      cases fuel' with
      | zero => exact absurd hl' (by simp)
      | succ m =>
        have hr : r.length ≤ n := by simpa using hl
        have hr' : r.length ≤ m := by simpa using hl'
        simp only [refTokensF]
        by_cases hc : c = ' '
        · rw [if_pos hc, if_pos hc, ih m r (pos + 1) hr hr']
        · have hlt := grabTok_snd_lt c r hc
          simp only [List.length_cons] at hlt
          have h1 : ((grabTok (c :: r)).2).length ≤ n := by omega
          have h2 : ((grabTok (c :: r)).2).length ≤ m := by omega
          rw [if_neg hc, if_neg hc,
            ih m ((grabTok (c :: r)).2) (pos + (grabTok (c :: r)).1.length) h1 h2]

/-- The one-step unfolding of the spec-side tokenizer. -/
theorem refTokens_cons (c : Char) (r : JStr) (pos : Nat) :
    refTokens (c :: r) pos =
      if c = ' ' then refTokens r (pos + 1)
      else
        (jsTrim (grabTok (c :: r)).1, pos) ::
          refTokens ((grabTok (c :: r)).2) (pos + (grabTok (c :: r)).1.length) := by
  show refTokensF (r.length + 1) (c :: r) pos = _
  simp only [refTokensF, refTokens]
  by_cases hc : c = ' '
  · rw [if_pos hc, if_pos hc]
  · have hlt := grabTok_snd_lt c r hc
    simp only [List.length_cons] at hlt
    rw [if_neg hc, if_neg hc,
      refTokensF_irrel r.length ((grabTok (c :: r)).2).length ((grabTok (c :: r)).2) _
        (by omega) (Nat.le_refl _)]

theorem csvParseQ_snd_length_le : ∀ l : JStr, (csvParseQ l).2.length ≤ l.length
  | [] => Nat.le_refl _
  | [c] => by
    simp only [csvParseQ]
    split <;> simp
  | c :: d :: r => by
    simp only [csvParseQ]
    split
    · split
      · simpa using Nat.le_succ_of_le (Nat.le_succ_of_le (csvParseQ_snd_length_le r))
      · simp
    · simpa using Nat.le_succ_of_le (csvParseQ_snd_length_le (d :: r))


/-! ## Substring clamping (claim C2) -/

theorem jsSubstringN_infix (s : JStr) (a b : Nat) :
    ∃ u w, u ++ jsSubstringN s a b ++ w = s := by
  unfold jsSubstringN
  refine ⟨(s.take (max (min a s.length) (min b s.length))).take
      (min (min a s.length) (min b s.length)),
    s.drop (max (min a s.length) (min b s.length)), ?_⟩
  rw [List.take_append_drop (min (min a s.length) (min b s.length))
    (s.take (max (min a s.length) (min b s.length)))]
  exact List.take_append_drop _ s

theorem jsSubstringN_of_len_le (s : JStr) (a b : Nat) (h : s.length ≤ a)
    (hab : a ≤ b) : jsSubstringN s a b = [] := by
  have h1 : min a s.length = s.length := Nat.min_eq_right h
  have h2 : min b s.length = s.length := Nat.min_eq_right (le_trans h hab)
  simp [jsSubstringN, h1, h2]

/-- Claim C2: the Row Decoder is total.  The empty Layout decodes any
line to the empty Record; every column slice is a contiguous piece of
the line (clamped slicing, never an out-of-range error); and a line no
longer than a column's start offset makes that column's slice the
empty string (so its trimmed value is the empty string). -/
theorem rowDecoder_total (layout : List (JStr × Nat × Nat)) (line lbl : JStr)
    (a b : Nat) (_hmem : (lbl, a, b) ∈ layout) (hab : a ≤ b)
    (hshort : line.length ≤ a) :
    decodeLine [] line = [] ∧
    (∀ a' b', ∃ u w, u ++ jsSubstringN line a' b' ++ w = line) ∧
    jsSubstringN line a b = [] ∧ jsTrim (jsSubstringN line a b) = [] := by
  have he : jsSubstringN line a b = [] := jsSubstringN_of_len_le line a b hshort hab
  exact ⟨rfl, fun a' b' => jsSubstringN_infix line a' b', he, by rw [he]; rfl⟩

/-- Witness for claim C2 at a concrete Layout and a short line. -/
theorem rowDecoder_total_witness :
    decodeLine [] "ab".data = [] ∧
    (∀ a' b', ∃ u w, u ++ jsSubstringN "ab".data a' b' ++ w = "ab".data) ∧
    jsSubstringN "ab".data 5 9 = [] ∧ jsTrim (jsSubstringN "ab".data 5 9) = [] :=
  rowDecoder_total [("X".data, 5, 9)] "ab".data "X".data 5 9 (by decide)
    (by decide) (by decide)

/-! ## formatBytes (claim C9) -/

theorem rhu_natCast_div (a b : Nat) (hb : 0 < b) :
    rhu ((a : ℚ) / (b : ℚ)) = (2 * a + b) / (2 * b) := by
  unfold rhu
  have hbq : (0 : ℚ) < (b : ℚ) := by exact_mod_cast hb
  have key : (a : ℚ) / (b : ℚ) + 1 / 2 = ((2 * a + b : ℕ) : ℚ) / ((2 * b : ℕ) : ℚ) := by
    push_cast
    field_simp
    ring
  rw [key, Nat.floor_div_nat, Nat.floor_natCast]

theorem cond_equiv (n i : Nat) :
    (10 ≤ (n : ℚ) / (1024 : ℚ) ^ i) ↔ 10 * 1024 ^ i ≤ n := by
  have hd : (0 : ℚ) < (1024 : ℚ) ^ i := by positivity
  rw [le_div_iff₀ hd]
  rw [show (10 : ℚ) * (1024 : ℚ) ^ i = ((10 * 1024 ^ i : ℕ) : ℚ) by push_cast; ring]
  exact_mod_cast Iff.rfl

/-- Claim C9, counterexample: the code checks `value >= 10` before
rounding, so 10189 bytes (≈ 9.95 KB; its base-1024 logarithm is far
from an integer, so the floating-point floor is exactly 1) prints with
one decimal place as `"10.0 KB"` although its rounded value is 10.0 of
its unit, where the claim's rule prints `"10 KB"`; and at 1024^5 − 1
bytes the floating-point logarithm step computes unit index 5 (the
quotient of doubles evaluates to exactly 5.0 although the exact
base-1024 logarithm has floor 4), indexing past the end of the unit
list and printing `"1.0 undefined"` rather than a B/KB/MB/GB/TB
unit. -/
theorem formatBytes_counterexample :
    formatBytes 10189 = "10.0 KB" ∧ claimFormatBytes 10189 = "10 KB" ∧
    formatBytesIdx 1 10189 = "10.0 KB" ∧ claimFormatBytesIdx 1 10189 = "10 KB" ∧
    formatBytesIdx 5 (1024 ^ 5 - 1) = "1.0 undefined" := by
  have h1 : Nat.log 1024 10189 = 1 :=
    Nat.log_eq_of_pow_le_of_lt_pow (by norm_num) (by norm_num)
  refine ⟨?_, ?_, ?_, ?_, ?_⟩
  · simp only [formatBytes, formatBytesIdx, h1]
    norm_num
    rfl
  · simp only [claimFormatBytes, claimFormatBytesIdx, h1]
    norm_num
    rfl
  · rfl
  · rfl
  · simp only [formatBytesIdx]
    norm_num
    rfl

/-- Claim C9 as amended: whatever unit index `i` the floating-point
logarithm step computes for a byte count `n`, the output follows the
exact-rational specification at that index — zero decimal places
exactly when the scaled value `n / 1024 ^ i` is at least 10 BEFORE
rounding or the unit is bytes, one decimal place otherwise, rendering
by round half up — with unit the `i`-th of B/KB/MB/GB/TB when `i ≤ 4`
and the string `"undefined"` once the index reaches past the unit list
(as it does at near-boundary counts such as 1024^5 − 1). -/
theorem formatBytes_amended (i n : Nat) :
    formatBytesIdx i n = specFormatBytesIdx i n ∧
    (i ≤ 4 → ["B", "KB", "MB", "GB", "TB"].getD i "undefined" ∈
      ["B", "KB", "MB", "GB", "TB"]) ∧
    (5 ≤ i → ["B", "KB", "MB", "GB", "TB"].getD i "undefined" = "undefined") := by
  refine ⟨?_, ?_, ?_⟩
  · have hd : 0 < 1024 ^ i := pow_pos (by norm_num) _
    have hcast : ((1024 : ℚ)) ^ i = ((1024 ^ i : ℕ) : ℚ) := by push_cast; ring
    have h1 : rhu ((n : ℚ) / (1024 : ℚ) ^ i) =
        (2 * n + 1024 ^ i) / (2 * 1024 ^ i) := by
      rw [hcast]; exact rhu_natCast_div n _ hd
    have h2 : rhu (10 * ((n : ℚ) / (1024 : ℚ) ^ i)) =
        (20 * n + 1024 ^ i) / (2 * 1024 ^ i) := by
      rw [hcast,
        show (10 : ℚ) * ((n : ℚ) / ((1024 ^ i : ℕ) : ℚ)) =
          ((10 * n : ℕ) : ℚ) / ((1024 ^ i : ℕ) : ℚ) by push_cast; ring,
        rhu_natCast_div (10 * n) _ hd]
      congr 2
      ring
    simp only [formatBytesIdx, specFormatBytesIdx, cond_equiv, h1, h2]
  · intro h4
    interval_cases i <;> simp
  · intro h5
    exact List.getD_eq_default _ _ (by simpa using h5)

/-- Witness for the amended claim C9 at unit index 1 and 2048 bytes,
where the specification's one-decimal branch concretely evaluates to
`"2.0 KB"`. -/
theorem formatBytes_amended_witness :
    (formatBytesIdx 1 2048 = specFormatBytesIdx 1 2048 ∧
    (1 ≤ 4 → ["B", "KB", "MB", "GB", "TB"].getD 1 "undefined" ∈
      ["B", "KB", "MB", "GB", "TB"]) ∧
    (5 ≤ 1 → ["B", "KB", "MB", "GB", "TB"].getD 1 "undefined" = "undefined")) ∧
    formatBytesIdx 1 2048 = "2.0 KB" :=
  ⟨formatBytes_amended 1 2048, by rfl⟩


/-! ## split(/\s+/) on trimmed strings (claims C3, C6) -/

theorem head?_dropWhile_false (p : Char → Bool) :
    ∀ (l : JStr) (c : Char), (l.dropWhile p).head? = some c → p c = false := by
  intro l
  induction l with
  | nil => intro c h; simp at h
  | cons x t ih =>
    intro c h
    by_cases hx : p x
    · rw [List.dropWhile_cons_of_pos hx] at h
      exact ih c h
    · rw [List.dropWhile_cons_of_neg hx] at h
      simp at h
      rw [← h]
      exact Bool.of_not_eq_true hx

theorem splitWsGo_some_of_dropWhile_nil :
    ∀ (r acc : JStr), r.dropWhile (fun x => !jsWs x) = [] →
    splitWsGo r (some acc) = [acc.reverse ++ r] := by
  intro r
  induction r with
  | nil => intro acc _; simp [splitWsGo]
  | cons c t ih =>
    intro acc h
    by_cases hc : jsWs c
    · rw [List.dropWhile_cons_of_neg (by simp [hc])] at h
      exact absurd h (by simp)
    · rw [List.dropWhile_cons_of_pos (by simp [hc])] at h
      simp only [splitWsGo, if_neg hc]
      rw [ih (c :: acc) h]
      simp

theorem splitWsGo_some_of_dropWhile_cons :
    ∀ (r acc : JStr) (d : Char) (rest : JStr),
    r.dropWhile (fun x => !jsWs x) = d :: rest →
    splitWsGo r (some acc) =
      (acc.reverse ++ r.takeWhile (fun x => !jsWs x)) :: splitWsGo rest none := by
  intro r
  induction r with
  | nil => intro acc d rest h; simp at h
  | cons c t ih =>
    intro acc d rest h
    by_cases hc : jsWs c
    · rw [List.dropWhile_cons_of_neg (by simp [hc])] at h
      injection h with h1 h2
      subst h1; subst h2
      simp only [splitWsGo, if_pos hc]
      rw [List.takeWhile_cons_of_neg (by simp [hc])]
      simp
    · rw [List.dropWhile_cons_of_pos (by simp [hc])] at h
      simp only [splitWsGo, if_neg hc]
      rw [ih (c :: acc) d rest h, List.takeWhile_cons_of_pos (by simp [hc])]
      simp

theorem splitWsGo_none_of_dropWhile_nil :
    ∀ s : JStr, s.dropWhile jsWs = [] → splitWsGo s none = [[]] := by
  intro s
  induction s with
  | nil => intro _; rfl
  | cons c t ih =>
    intro h
    by_cases hc : jsWs c
    · rw [List.dropWhile_cons_of_pos hc] at h
      simp only [splitWsGo, if_pos hc]
      exact ih h
    · rw [List.dropWhile_cons_of_neg hc] at h
      exact absurd h (by simp)

theorem splitWsGo_none_of_dropWhile_cons :
    ∀ (s : JStr) (e : Char) (t' : JStr), s.dropWhile jsWs = e :: t' →
    splitWsGo s none = splitWsGo t' (some [e]) := by
  intro s
  induction s with
  | nil => intro e t' h; simp at h
  | cons c t ih =>
    intro e t' h
    by_cases hc : jsWs c
    · rw [List.dropWhile_cons_of_pos hc] at h
      simp only [splitWsGo, if_pos hc]
      exact ih e t' h
    · rw [List.dropWhile_cons_of_neg hc] at h
      injection h with h1 h2
      subst h1; subst h2
      simp only [splitWsGo, if_neg hc]

theorem wsTokensF_nil (fuel : Nat) : wsTokensF fuel [] = [] := by
  cases fuel <;> rfl

theorem wsTokensF_irrel :
    ∀ (fuel fuel' : Nat) (l : JStr), l.length ≤ fuel → l.length ≤ fuel' →
    wsTokensF fuel l = wsTokensF fuel' l := by
  intro fuel
  induction fuel with
  | zero =>
    intro fuel' l hl _
    have : l = [] := List.length_eq_zero.mp (Nat.le_zero.mp hl)
    subst this
    rw [wsTokensF_nil, wsTokensF_nil]
  | succ n ih =>
    intro fuel' l hl hl'
    cases l with
    | nil => rw [wsTokensF_nil, wsTokensF_nil]
    | cons c r =>
      cases fuel' with
      | zero => exact absurd hl' (by simp)
      | succ m =>
        have hr : r.length ≤ n := by simpa using hl
        have hr' : r.length ≤ m := by simpa using hl'
        have hdr : (r.dropWhile (fun x => !jsWs x)).length ≤ r.length :=
          (List.dropWhile_sublist _).length_le
        simp only [wsTokensF]
        by_cases hc : jsWs c = true
        · rw [if_pos hc, if_pos hc, ih m r hr hr']
        · rw [if_neg hc, if_neg hc,
            ih m (r.dropWhile (fun x => !jsWs x)) (by omega) (by omega)]

theorem wsTokens_cons (c : Char) (r : JStr) :
    wsTokens (c :: r) =
      if jsWs c then wsTokens r
      else (c :: r.takeWhile (fun x => !jsWs x)) ::
        wsTokens (r.dropWhile (fun x => !jsWs x)) := by
  show wsTokensF (r.length + 1) (c :: r) = _
  simp only [wsTokensF, wsTokens]
  by_cases hc : jsWs c = true
  · rw [if_pos hc, if_pos hc]
  · rw [if_neg hc, if_neg hc,
      wsTokensF_irrel r.length (r.dropWhile (fun x => !jsWs x)).length
        (r.dropWhile (fun x => !jsWs x)) (List.dropWhile_sublist _).length_le
        (Nat.le_refl _)]

theorem wsTokens_dropWhile : ∀ r : JStr, wsTokens (r.dropWhile jsWs) = wsTokens r := by
  intro r
  induction r with
  | nil => rfl
  | cons c t ih =>
    by_cases hc : jsWs c
    · rw [List.dropWhile_cons_of_pos hc, wsTokens_cons, if_pos hc]
      exact ih
    · rw [List.dropWhile_cons_of_neg hc]

theorem jsSplitWs_eq_wsTokens :
    ∀ (N : Nat) (s : JStr), s.length ≤ N → s ≠ [] →
    (∀ c, s.head? = some c → jsWs c = false) →
    (∀ c, s.getLast? = some c → jsWs c = false) →
    jsSplitWs s = wsTokens s := by
  intro N
  induction N with
  | zero =>
    intro s hN hne _ _
    exact absurd (List.length_eq_zero.mp (Nat.le_zero.mp hN)) hne
  | succ N ih =>
    intro s hN hne hhead hlast
    obtain ⟨c, t, rfl⟩ := List.exists_cons_of_ne_nil hne
    have hc : jsWs c = false := hhead c rfl
    rcases hdw : List.dropWhile (fun x => !jsWs x) (c :: t) with _ | ⟨d, rest⟩
    · rw [jsSplitWs, splitWsGo_some_of_dropWhile_nil (c :: t) [] hdw]
      have ht : List.dropWhile (fun x => !jsWs x) t = [] := by
        rwa [List.dropWhile_cons_of_pos (by simp [hc])] at hdw
      have htake : List.takeWhile (fun x => !jsWs x) t = t := by
        have := List.takeWhile_append_dropWhile (fun x => !jsWs x) t
        rwa [ht, List.append_nil] at this
      rw [wsTokens_cons, if_neg (by simp [hc]), ht, htake]
      rfl
    · have hd : jsWs d = true := by
        have := head?_dropWhile_false (fun x => !jsWs x) (c :: t) d (by rw [hdw]; rfl)
        simpa using this
      have ht : List.dropWhile (fun x => !jsWs x) t = d :: rest := by
        rwa [List.dropWhile_cons_of_pos (by simp [hc])] at hdw
      rw [jsSplitWs, splitWsGo_some_of_dropWhile_cons (c :: t) [] d rest hdw,
        wsTokens_cons, if_neg (by simp [hc]), ht]
      have htake : List.takeWhile (fun x => !jsWs x) (c :: t) =
          c :: List.takeWhile (fun x => !jsWs x) t :=
        List.takeWhile_cons_of_pos (by simp [hc])
      rw [htake]
      simp only [List.reverse_nil, List.nil_append, List.cons.injEq, true_and]
      -- it remains to relate `splitWsGo rest none` with `wsTokens (d :: rest)`
      rw [wsTokens_cons, if_pos hd, ← wsTokens_dropWhile rest]
      rcases hdr : List.dropWhile jsWs rest with _ | ⟨e, t'⟩
      · -- rest is all whitespace: contradicts that the last character of s
        -- is not whitespace
        exfalso
        have hsfx : (c :: t) = List.takeWhile (fun x => !jsWs x) (c :: t) ++ (d :: rest) := by
          rw [← hdw, List.takeWhile_append_dropWhile]
        have hlast2 : (c :: t).getLast? = (d :: rest).getLast? := by
          rw [hsfx]
          exact List.getLast?_append_of_ne_nil _ (by simp)
        have hallws : ∀ x ∈ rest, jsWs x := List.dropWhile_eq_nil_iff.mp hdr
        rcases hrest : rest.getLast? with _ | x
        · have : rest = [] := by
            cases rest with
            | nil => rfl
            | cons y ys => simp [List.getLast?_cons] at hrest
          subst this
          have : (c :: t).getLast? = some d := by rw [hlast2]; rfl
          have := hlast d this
          rw [hd] at this
          exact absurd this (by simp)
        · have hx : x ∈ rest := List.mem_of_getLast?_eq_some hrest
          have hxl : (c :: t).getLast? = some x := by
            rw [hlast2, List.getLast?_cons, hrest]
            rfl
          have := hlast x hxl
          rw [hallws x hx] at this
          exact absurd this (by simp)
      · -- the next token starts at `e`
        have he : jsWs e = false := by
          have := head?_dropWhile_false jsWs rest e (by rw [hdr]; rfl)
          simpa using this
        rw [splitWsGo_none_of_dropWhile_cons rest e t' hdr]
        have hs' : jsSplitWs (e :: t') = splitWsGo t' (some [e]) := by
          simp only [jsSplitWs, splitWsGo, he]
          rw [if_neg (by simp [he])]
        rw [← hs']
        apply ih (e :: t')
        · -- length bound
          have h1 : (e :: t').length ≤ rest.length :=
            hdr ▸ (List.dropWhile_sublist jsWs).length_le
          have h2 : (d :: rest).length ≤ t.length :=
            ht ▸ (List.dropWhile_sublist (fun x => !jsWs x)).length_le
          simp only [List.length_cons] at h1 h2 hN ⊢
          omega
        · simp
        · intro c' h'
          simp only [List.head?_cons, Option.some.injEq] at h'
          rw [← h']
          exact he
        · -- the last character of e :: t' is the last character of s
          intro c' h'
          apply hlast c'
          have hsfx : (c :: t) = List.takeWhile (fun x => !jsWs x) (c :: t) ++ (d :: rest) := by
            rw [← hdw, List.takeWhile_append_dropWhile]
          have hrfx : rest = List.takeWhile jsWs rest ++ (e :: t') := by
            rw [← hdr, List.takeWhile_append_dropWhile]
          rw [hsfx, List.getLast?_append_of_ne_nil _ (by simp)]
          have : (d :: rest).getLast? = rest.getLast? := by
            rw [List.getLast?_cons]
            rw [hrfx]
            cases hg : (List.takeWhile jsWs rest ++ e :: t').getLast? with
            | none => simp at hg
            | some y => rfl
          rw [this, hrfx, List.getLast?_append_of_ne_nil _ (by simp)]
          exact h'

theorem jsTrim_getLast?_false (s : JStr) (c : Char)
    (h : (jsTrim s).getLast? = some c) : jsWs c = false := by
  unfold jsTrim at h
  rw [List.getLast?_reverse] at h
  exact head?_dropWhile_false jsWs _ c h

theorem jsTrim_head?_false (s : JStr) (c : Char)
    (h : (jsTrim s).head? = some c) : jsWs c = false := by
  unfold jsTrim at h
  rw [List.head?_reverse] at h
  set X := (s.dropWhile jsWs).reverse with hX
  have hm : X.dropWhile jsWs ≠ [] := by
    intro hnil
    rw [hnil] at h
    simp at h
  have hXsplit : X = X.takeWhile jsWs ++ X.dropWhile jsWs :=
    (List.takeWhile_append_dropWhile jsWs X).symm
  have h2 : X.getLast? = some c := by
    rw [hXsplit, List.getLast?_append_of_ne_nil _ hm]
    exact h
  rw [hX, List.getLast?_reverse] at h2
  exact head?_dropWhile_false jsWs _ c h2

/-- On a nonempty trimmed string, `split(/\s+/)` gives exactly the
whitespace-separated tokens. -/
theorem jsSplitWs_jsTrim (s : JStr) (hne : jsTrim s ≠ []) :
    jsSplitWs (jsTrim s) = wsTokens (jsTrim s) :=
  jsSplitWs_eq_wsTokens (jsTrim s).length (jsTrim s) (Nat.le_refl _) hne
    (jsTrim_head?_false s) (jsTrim_getLast?_false s)

theorem take_min_length (v : JStr) (b : Nat) : v.take (min b v.length) = v.take b := by
  rcases le_total b v.length with h | h
  · rw [Nat.min_eq_left h]
  · rw [Nat.min_eq_right h, List.take_length, List.take_of_length_le h]

theorem drop_min_length (v : JStr) (a : Nat) : v.drop (min a v.length) = v.drop a := by
  rcases le_total a v.length with h | h
  · rw [Nat.min_eq_left h]
  · rw [Nat.min_eq_right h, List.drop_length, List.drop_of_length_le h]

theorem jsSubstringN_zero_left (v : JStr) (b : Nat) : jsSubstringN v 0 b = v.take b := by
  simp only [jsSubstringN, Nat.zero_min, Nat.zero_max, List.drop_zero]
  exact take_min_length v b

theorem jsSubstringN_to_length (v : JStr) (a : Nat) :
    jsSubstringN v a v.length = v.drop a := by
  simp only [jsSubstringN, Nat.min_self]
  rw [Nat.max_eq_right (Nat.min_le_right a v.length),
    Nat.min_eq_left (Nat.min_le_right a v.length), List.take_length]
  exact drop_min_length v a

/-- Claim C3: under the header label `'Fed Sex Tit'`, the decoder emits
`Fed` as the trimmed first 3 characters of the sliced value, `Sex` as
the first whitespace-separated token of the trimmed remainder (empty
when absent) and `Title` as the remaining tokens rejoined with single
spaces; in particular `"USA m   GM"` decodes to Fed `"USA"`, Sex `"m"`,
Title `"GM"`. -/
theorem fedSexTit_branch (obj : Record) (v : JStr) :
    decodeCell obj "Fed Sex Tit".data v =
      objSet (objSet (objSet obj "Fed".data (jsTrim (v.take 3)))
        "Sex".data ((wsTokens (jsTrim (v.drop 3))).getD 0 []))
        "Title".data (joinSp ((wsTokens (jsTrim (v.drop 3))).tail)) ∧
    decodeCell [] "Fed Sex Tit".data "USA m   GM".data =
      [("Fed".data, "USA".data), ("Sex".data, "m".data), ("Title".data, "GM".data)] := by
  constructor
  · simp only [decodeCell, if_pos rfl, if_true, jsSubstringN_zero_left,
      jsSubstringN_to_length]
    by_cases hr : jsTrim (v.drop 3) = []
    · rw [hr]
      rfl
    · rw [jsSplitWs_jsTrim (v.drop 3) hr]
  · decide

/-- Claim C6: under a header label starting with `'FOA AUG'`, the
decoder emits `FOA`, `Gms` and `K` as the first, second and third
whitespace-separated tokens of the sliced value (empty when absent),
and `Rating` as the second whitespace-separated token of the ORIGINAL
header column label itself, not of the sliced value. -/
theorem foaAug_branch (obj : Record) (lbl v : JStr)
    (hpre : "FOA AUG".data.isPrefixOf lbl = true)
    (hlbl : jsTrim lbl = lbl) (hv : jsTrim v = v) :
    decodeCell obj lbl v =
      objSet (objSet (objSet (objSet obj "FOA".data ((wsTokens v).getD 0 []))
        "Rating".data ((wsTokens lbl).getD 1 []))
        "Gms".data ((wsTokens v).getD 1 []))
        "K".data ((wsTokens v).getD 2 []) := by
  have h1 : ¬(lbl = "Fed Sex Tit".data) := by
    intro h
    rw [h] at hpre
    exact absurd hpre (by decide)
  have h2 : ¬(lbl = "WTit OTit".data) := by
    intro h
    rw [h] at hpre
    exact absurd hpre (by decide)
  have hlblne : lbl ≠ [] := by
    intro h
    rw [h] at hpre
    exact absurd hpre (by decide)
  have hlbltok : jsSplitWs lbl = wsTokens lbl := by
    conv_lhs => rw [← hlbl]
    rw [jsSplitWs_jsTrim lbl (by rwa [hlbl])]
    rw [hlbl]
  simp only [decodeCell, if_neg h1, if_neg h2, if_pos hpre, hlbltok]
  by_cases hvne : v = []
  · subst hvne
    rfl
  · have hvtok : jsSplitWs v = wsTokens v := by
      conv_lhs => rw [← hv]
      rw [jsSplitWs_jsTrim v (by rwa [hv])]
      rw [hv]
    rw [hvtok]

/-- Witness for claim C6 at a concrete label and value. -/
theorem foaAug_branch_witness :
    decodeCell [] "FOA AUG24 Gms K".data "w 30 40".data =
      objSet (objSet (objSet (objSet [] "FOA".data
        ((wsTokens "w 30 40".data).getD 0 []))
        "Rating".data ((wsTokens "FOA AUG24 Gms K".data).getD 1 []))
        "Gms".data ((wsTokens "w 30 40".data).getD 1 []))
        "K".data ((wsTokens "w 30 40".data).getD 2 []) :=
  foaAug_branch [] "FOA AUG24 Gms K".data "w 30 40".data (by decide) (by decide)
    (by decide)

/-! ## Partitioner lemmas (claims C4, C10) -/

theorem grpOf_cons_pos (p : JStr × List JStr) (t : List (JStr × List JStr))
    (k : JStr) (h : p.1 = k) : grpOf (p :: t) k = p.2 := by
  simp [grpOf, h]

theorem grpOf_cons_neg (p : JStr × List JStr) (t : List (JStr × List JStr))
    (k : JStr) (h : ¬ p.1 = k) : grpOf (p :: t) k = grpOf t k := by
  simp [grpOf, h]

theorem addLine_cons (p : JStr × List JStr) (t : List (JStr × List JStr))
    (k : JStr) (l : JStr) :
    addLine (p :: t) k l =
      if p.1 = k then
        (p.1, p.2 ++ [l]) ::
          t.map (fun q => if q.1 = k then (q.1, q.2 ++ [l]) else q)
      else p :: addLine t k l := by
  by_cases hp : p.1 = k
  · rw [if_pos hp]
    unfold addLine
    rw [if_pos (by simp [hp]), List.map_cons, if_pos hp]
  · rw [if_neg hp]
    unfold addLine
    by_cases hat : t.any (fun q => q.1 = k)
    · rw [if_pos (by simp [hp, hat]), if_pos hat, List.map_cons, if_neg hp]
    · rw [if_neg (by simp [hp, hat]), if_neg hat]
      rfl

theorem grpOf_nil (k : JStr) : grpOf [] k = [] := rfl

theorem grpOf_addLine_self :
    ∀ (m : List (JStr × List JStr)) (k : JStr) (l : JStr),
    grpOf (addLine m k l) k = grpOf m k ++ [l] := by
  intro m
  induction m with
  | nil =>
    intro k l
    show grpOf [(k, [l])] k = grpOf [] k ++ [l]
    rw [grpOf_cons_pos _ _ _ rfl, grpOf_nil]
    rfl
  | cons p t ih =>
    intro k l
    rw [addLine_cons]
    by_cases hp : p.1 = k
    · rw [if_pos hp, grpOf_cons_pos (p.1, p.2 ++ [l]) _ k hp,
        grpOf_cons_pos p t k hp]
    · rw [if_neg hp, grpOf_cons_neg p _ k hp, grpOf_cons_neg p t k hp]
      exact ih k l

theorem find?_map_keyPreserving (k k' : JStr) (l : JStr)
    (t : List (JStr × List JStr)) :
    List.find? (fun q => q.1 = k)
      (t.map (fun q => if q.1 = k' then (q.1, q.2 ++ [l]) else q)) =
    (List.find? (fun q => q.1 = k) t).map
      (fun q => if q.1 = k' then (q.1, q.2 ++ [l]) else q) := by
  rw [List.find?_map]
  have hpred : ((fun q : JStr × List JStr => decide (q.1 = k)) ∘
      (fun q => if q.1 = k' then (q.1, q.2 ++ [l]) else q)) =
      (fun q : JStr × List JStr => decide (q.1 = k)) := by
    funext q
    by_cases hq : q.1 = k'
    · simp [Function.comp, hq]
    · simp [Function.comp, hq]
  rw [hpred]

theorem grpOf_addLine_ne :
    ∀ (m : List (JStr × List JStr)) (k k' : JStr) (l : JStr), k' ≠ k →
    grpOf (addLine m k' l) k = grpOf m k := by
  intro m
  induction m with
  | nil =>
    intro k k' l hk
    show grpOf [(k', [l])] k = grpOf [] k
    rw [grpOf_cons_neg (k', [l]) [] k (by simpa using hk)]
  | cons p t ih =>
    intro k k' l hk
    rw [addLine_cons]
    by_cases hp : p.1 = k'
    · rw [if_pos hp]
      have hpk : ¬ p.1 = k := by rw [hp]; exact hk
      rw [grpOf_cons_neg (p.1, p.2 ++ [l]) _ k hpk, grpOf_cons_neg p t k hpk]
      unfold grpOf
      rw [find?_map_keyPreserving k k' l t]
      cases hf : List.find? (fun q => decide (q.1 = k)) t with
      | none => rfl
      | some q =>
        have hqk : q.1 = k := by simpa using List.find?_some hf
        have hq' : ¬ q.1 = k' := by rw [hqk]; exact fun h => hk h.symm
        simp [hq']
    · rw [if_neg hp]
      by_cases hpk : p.1 = k
      · rw [grpOf_cons_pos p _ k hpk, grpOf_cons_pos p t k hpk]
      · rw [grpOf_cons_neg p _ k hpk, grpOf_cons_neg p t k hpk]
        exact ih k k' l hk

theorem hasGrp_iff_mem_keys (m : List (JStr × List JStr)) (k : JStr) :
    hasGrp m k = true ↔ k ∈ m.map (fun p => p.1) := by
  simp [hasGrp, List.any_eq_true, List.mem_map]

theorem addLine_map_fst (m : List (JStr × List JStr)) (k : JStr) (l : JStr) :
    (addLine m k l).map (fun p => p.1) =
      if hasGrp m k then m.map (fun p => p.1)
      else m.map (fun p => p.1) ++ [k] := by
  by_cases h : hasGrp m k
  · rw [if_pos h]
    unfold addLine
    rw [if_pos (by simpa [hasGrp] using h), List.map_map]
    apply List.map_congr_left
    intro q _
    by_cases hq : q.1 = k
    · simp [Function.comp, hq]
    · simp [Function.comp, hq]
  · rw [if_neg h]
    unfold addLine
    rw [if_neg (by simpa [hasGrp] using h)]
    simp

theorem hasGrp_addLine_self (m : List (JStr × List JStr)) (k : JStr) (l : JStr) :
    hasGrp (addLine m k l) k = true := by
  rw [hasGrp_iff_mem_keys, addLine_map_fst]
  by_cases h : hasGrp m k
  · rw [if_pos h]
    exact (hasGrp_iff_mem_keys m k).mp h
  · rw [if_neg h]
    simp

theorem hasGrp_addLine_mono (m : List (JStr × List JStr)) (k k' : JStr) (l : JStr)
    (h : hasGrp m k = true) : hasGrp (addLine m k' l) k = true := by
  rw [hasGrp_iff_mem_keys, addLine_map_fst]
  by_cases h' : hasGrp m k'
  · rw [if_pos h']
    exact (hasGrp_iff_mem_keys m k).mp h
  · rw [if_neg h']
    exact List.mem_append_left _ ((hasGrp_iff_mem_keys m k).mp h)

theorem nodupKeys_addLine (m : List (JStr × List JStr)) (k : JStr) (l : JStr)
    (h : (m.map (fun p => p.1)).Nodup) :
    ((addLine m k l).map (fun p => p.1)).Nodup := by
  rw [addLine_map_fst]
  by_cases hk : hasGrp m k
  · rwa [if_pos hk]
  · rw [if_neg hk, List.nodup_append]
    refine ⟨h, List.nodup_singleton k, ?_⟩
    intro x hx hx'
    simp only [List.mem_singleton] at hx'
    subst hx'
    exact hk ((hasGrp_iff_mem_keys m x).mpr hx)

theorem mem_addLine (m : List (JStr × List JStr)) (k : JStr) (l : JStr)
    (kg : JStr × List JStr) (h : kg ∈ addLine m k l) : kg ∈ m ∨ kg.1 = k := by
  unfold addLine at h
  by_cases hany : m.any (fun p => p.1 = k)
  · rw [if_pos hany] at h
    obtain ⟨q, hq, hfq⟩ := List.mem_map.mp h
    by_cases hqk : q.1 = k
    · right
      rw [← hfq]
      simp [hqk]
    · left
      rw [← hfq]
      simpa [hqk] using hq
  · rw [if_neg hany] at h
    rcases List.mem_append.mp h with h' | h'
    · exact Or.inl h'
    · right
      simp only [List.mem_singleton] at h'
      rw [h']

theorem grpOf_of_mem :
    ∀ (m : List (JStr × List JStr)) (kg : JStr × List JStr),
    (m.map (fun p => p.1)).Nodup → kg ∈ m → grpOf m kg.1 = kg.2 := by
  intro m
  induction m with
  | nil => intro kg _ h; exact absurd h (by simp)
  | cons p t ih =>
    intro kg hnd hm
    rcases List.mem_cons.mp hm with rfl | hm'
    · exact grpOf_cons_pos kg t kg.1 rfl
    · have hk : kg.1 ∈ t.map (fun p => p.1) := List.mem_map.mpr ⟨kg, hm', rfl⟩
      rw [List.map_cons, List.nodup_cons] at hnd
      have hp : ¬ p.1 = kg.1 := fun h => hnd.1 (h ▸ hk)
      rw [grpOf_cons_neg _ _ _ hp]
      exact ih kg hnd.2 hm'

theorem mem_of_hasGrp :
    ∀ (m : List (JStr × List JStr)) (k : JStr), hasGrp m k = true →
    (k, grpOf m k) ∈ m := by
  intro m
  induction m with
  | nil => intro k h; exact absurd h (by simp [hasGrp])
  | cons p t ih =>
    intro k h
    by_cases hp : p.1 = k
    · have hkey : ((k, grpOf (p :: t) k) : JStr × List JStr) = p := by
        rw [grpOf_cons_pos p t k hp, ← hp]
      rw [hkey]
      exact List.mem_cons_self p t
    · have ht : hasGrp t k = true := by
        simpa [hasGrp, hp] using h
      rw [grpOf_cons_neg p t k hp]
      exact List.mem_cons_of_mem p (ih k ht)

theorem fedMap_fold_keys_ne :
    ∀ (header : JStr) (lines : List JStr) (m : List (JStr × List JStr)),
    (∀ kg ∈ m, kg.1 ≠ []) →
    ∀ kg ∈ lines.foldl (fedStep header) m, kg.1 ≠ [] := by
  intro header lines
  induction lines with
  | nil => intro m hm kg h; exact hm kg h
  | cons l ls ih =>
    intro m hm kg h
    rw [List.foldl_cons] at h
    refine ih (fedStep header m l) ?_ kg h
    intro kg' hkg'
    unfold fedStep at hkg'
    by_cases hkey : fedKeyOf header l = []
    · rw [if_pos hkey] at hkg'
      exact hm kg' hkg'
    · rw [if_neg hkey] at hkg'
      rcases mem_addLine m (fedKeyOf header l) l kg' hkg' with h' | h'
      · exact hm kg' h'
      · rw [h']
        exact hkey

theorem fedMap_fold_nodup :
    ∀ (header : JStr) (lines : List JStr) (m : List (JStr × List JStr)),
    (m.map (fun p => p.1)).Nodup →
    ((lines.foldl (fedStep header) m).map (fun p => p.1)).Nodup := by
  intro header lines
  induction lines with
  | nil => intro m hm; exact hm
  | cons l ls ih =>
    intro m hm
    rw [List.foldl_cons]
    refine ih (fedStep header m l) ?_
    unfold fedStep
    by_cases hkey : fedKeyOf header l = []
    · rwa [if_pos hkey]
    · rw [if_neg hkey]
      exact nodupKeys_addLine m _ l hm

theorem fedMap_fold_grp :
    ∀ (header : JStr) (lines : List JStr) (m : List (JStr × List JStr)) (k : JStr),
    k ≠ [] →
    grpOf (lines.foldl (fedStep header) m) k =
      grpOf m k ++ lines.filter (fun l => fedKeyOf header l = k) := by
  intro header lines
  induction lines with
  | nil => intro m k _; simp
  | cons l ls ih =>
    intro m k hk
    rw [List.foldl_cons, ih (fedStep header m l) k hk]
    unfold fedStep
    by_cases hkey : fedKeyOf header l = []
    · rw [if_pos hkey]
      have hne : ¬(fedKeyOf header l = k) := by rw [hkey]; exact fun h => hk h.symm
      rw [List.filter_cons_of_neg (by simpa using hne)]
    · rw [if_neg hkey]
      by_cases hlk : fedKeyOf header l = k
      · rw [hlk, grpOf_addLine_self, List.filter_cons_of_pos (by simp [hlk])]
        simp
      · rw [grpOf_addLine_ne m k _ l hlk,
          List.filter_cons_of_neg (by simpa using hlk)]

theorem fedMap_fold_hasGrp_mono :
    ∀ (header : JStr) (lines : List JStr) (m : List (JStr × List JStr)) (k : JStr),
    hasGrp m k = true → hasGrp (lines.foldl (fedStep header) m) k = true := by
  intro header lines
  induction lines with
  | nil => intro m k h; exact h
  | cons l ls ih =>
    intro m k h
    rw [List.foldl_cons]
    refine ih (fedStep header m l) k ?_
    unfold fedStep
    by_cases hk1 : fedKeyOf header l = []
    · rwa [if_pos hk1]
    · rw [if_neg hk1]
      exact hasGrp_addLine_mono _ _ _ l h

theorem fedMap_fold_hasGrp :
    ∀ (header : JStr) (lines : List JStr) (m : List (JStr × List JStr)) (l : JStr),
    l ∈ lines → fedKeyOf header l ≠ [] →
    hasGrp (lines.foldl (fedStep header) m) (fedKeyOf header l) = true := by
  intro header lines
  induction lines with
  | nil => intro m l h _; exact absurd h (by simp)
  | cons l0 ls ih =>
    intro m l hl hkey
    rw [List.foldl_cons]
    rcases List.mem_cons.mp hl with rfl | hl'
    · refine fedMap_fold_hasGrp_mono header ls (fedStep header m l) _ ?_
      unfold fedStep
      rw [if_neg hkey]
      exact hasGrp_addLine_self m _ l
    · exact ih (fedStep header m l0) l hl' hkey


theorem jsSubstringI_ofNat (s : JStr) (a b : Nat) :
    jsSubstringI s (a : Int) (b : Int) = jsSubstringN s a b := by
  simp only [jsSubstringI, jsSubstringN]
  have h1 : (max (max 0 (min (a : Int) (s.length : Int)))
      (max 0 (min (b : Int) (s.length : Int)))).toNat =
      max (min a s.length) (min b s.length) := by omega
  have h2 : (min (max 0 (min (a : Int) (s.length : Int)))
      (max 0 (min (b : Int) (s.length : Int)))).toNat =
      min (min a s.length) (min b s.length) := by omega
  rw [h1, h2]

theorem fedKeyOf_of_found (header : JStr) (i : Nat)
    (h : findIndexOf header "Fed".data = some i) (line : JStr) :
    fedKeyOf header line = jsTrim (jsSubstringN line i (i + 3)) := by
  simp only [fedKeyOf, jsIndexOf, h]
  rw [show ((i : Int) + 3) = ((i + 3 : Nat) : Int) by push_cast; ring,
    jsSubstringI_ofNat]

theorem fedKeyOf_of_none (header : JStr)
    (h : findIndexOf header "Fed".data = none) (line : JStr) :
    fedKeyOf header line = jsTrim (line.take 2) := by
  simp only [fedKeyOf, jsIndexOf, h]
  congr 1
  simp only [jsSubstringI]
  have h1 : (max (max 0 (min (-1 : Int) (line.length : Int)))
      (max 0 (min ((-1 : Int) + 3) (line.length : Int)))).toNat =
      min 2 line.length := by omega
  have h2 : (min (max 0 (min (-1 : Int) (line.length : Int)))
      (max 0 (min ((-1 : Int) + 3) (line.length : Int)))).toNat = 0 := by omega
  rw [h1, h2, List.drop_zero]
  exact take_min_length line 2

/-- Claim C4: when the key label text `'Fed'` occurs in the header at
index `i`, each line's key is the trimmed slice over the label's own
character span `[i, i+3)`; every group's key is nonempty; every group
is exactly the original-order sublist of lines whose key equals the
group key; blank-keyed lines appear in no group; and every line with a
nonempty key is retained in its key's group. -/
theorem partitioner_groups (header : JStr) (lines : List JStr) (i : Nat)
    (hFed : findIndexOf header "Fed".data = some i) :
    (∀ line, fedKeyOf header line = jsTrim (jsSubstringN line i (i + 3))) ∧
    (∀ kg ∈ fedMapOf header lines,
      kg.1 ≠ [] ∧ kg.2 = lines.filter (fun l => fedKeyOf header l = kg.1)) ∧
    (∀ l ∈ lines, fedKeyOf header l = [] →
      ∀ kg ∈ fedMapOf header lines, l ∉ kg.2) ∧
    (∀ l ∈ lines, fedKeyOf header l ≠ [] →
      ∃ g, (fedKeyOf header l, g) ∈ fedMapOf header lines ∧ l ∈ g) := by
  have hgrps : ∀ kg ∈ fedMapOf header lines,
      kg.1 ≠ [] ∧ kg.2 = lines.filter (fun l => fedKeyOf header l = kg.1) := by
    intro kg hkg
    have hk : kg.1 ≠ [] := fedMap_fold_keys_ne header lines [] (by simp) kg hkg
    refine ⟨hk, ?_⟩
    have hnd := fedMap_fold_nodup header lines [] (by simp)
    have hmem := grpOf_of_mem (fedMapOf header lines) kg hnd hkg
    rw [← hmem]
    show grpOf (lines.foldl (fedStep header) []) kg.1 = _
    rw [fedMap_fold_grp header lines [] kg.1 hk, grpOf_nil, List.nil_append]
  refine ⟨fedKeyOf_of_found header i hFed, hgrps, ?_, ?_⟩
  · intro l _ hkey kg hkg hmem2
    obtain ⟨hk, hfil⟩ := hgrps kg hkg
    rw [hfil] at hmem2
    have := List.of_mem_filter hmem2
    simp only [decide_eq_true_eq] at this
    rw [hkey] at this
    exact hk this.symm
  · intro l hl hkey
    have hhas := fedMap_fold_hasGrp header lines [] l hl hkey
    refine ⟨grpOf (fedMapOf header lines) (fedKeyOf header l),
      mem_of_hasGrp _ _ hhas, ?_⟩
    show l ∈ grpOf (lines.foldl (fedStep header) []) (fedKeyOf header l)
    rw [fedMap_fold_grp header lines [] _ hkey, grpOf_nil, List.nil_append]
    exact List.mem_filter.mpr ⟨hl, by simp⟩

/-- Witness for claim C4 at a concrete header and lines. -/
theorem partitioner_groups_witness :
    (∀ line, fedKeyOf "ID  Fed  Name".data line =
      jsTrim (jsSubstringN line 4 (4 + 3))) ∧
    (∀ kg ∈ fedMapOf "ID  Fed  Name".data
        ["1   USA alice".data, "2   GER bob".data],
      kg.1 ≠ [] ∧ kg.2 = ["1   USA alice".data, "2   GER bob".data].filter
        (fun l => fedKeyOf "ID  Fed  Name".data l = kg.1)) ∧
    (∀ l ∈ ["1   USA alice".data, "2   GER bob".data],
      fedKeyOf "ID  Fed  Name".data l = [] →
      ∀ kg ∈ fedMapOf "ID  Fed  Name".data
        ["1   USA alice".data, "2   GER bob".data], l ∉ kg.2) ∧
    (∀ l ∈ ["1   USA alice".data, "2   GER bob".data],
      fedKeyOf "ID  Fed  Name".data l ≠ [] →
      ∃ g, (fedKeyOf "ID  Fed  Name".data l, g) ∈
        fedMapOf "ID  Fed  Name".data
          ["1   USA alice".data, "2   GER bob".data] ∧ l ∈ g) :=
  partitioner_groups "ID  Fed  Name".data
    ["1   USA alice".data, "2   GER bob".data] 4 (by decide)

/-- Claim C10: when the header does not contain `'Fed'`, the label
search yields `-1`, the key slice clamps to the first two characters of
each line, and the Partitioner silently groups lines by the trimmed
2-character prefix: groups are exactly the original-order sublists with
equal nonempty trimmed prefix, and any line with a nonempty trimmed
prefix lands in its group (no error, no universal dropping). -/
theorem partitioner_no_fed (header : JStr) (lines : List JStr)
    (hFed : findIndexOf header "Fed".data = none) :
    (∀ line, fedKeyOf header line = jsTrim (line.take 2)) ∧
    (∀ kg ∈ fedMapOf header lines,
      kg.1 ≠ [] ∧ kg.2 = lines.filter (fun l => jsTrim (l.take 2) = kg.1)) ∧
    (∀ l ∈ lines, jsTrim (l.take 2) ≠ [] →
      ∃ g, (jsTrim (l.take 2), g) ∈ fedMapOf header lines ∧ l ∈ g) := by
  have hkeyeq := fedKeyOf_of_none header hFed
  refine ⟨hkeyeq, ?_, ?_⟩
  · intro kg hkg
    have hk : kg.1 ≠ [] := fedMap_fold_keys_ne header lines [] (by simp) kg hkg
    refine ⟨hk, ?_⟩
    have hnd := fedMap_fold_nodup header lines [] (by simp)
    have hmem := grpOf_of_mem (fedMapOf header lines) kg hnd hkg
    rw [← hmem]
    show grpOf (lines.foldl (fedStep header) []) kg.1 = _
    rw [fedMap_fold_grp header lines [] kg.1 hk, grpOf_nil, List.nil_append]
    apply List.filter_congr
    intro x _
    rw [hkeyeq x]
  · intro l hl hkey
    have hkey' : fedKeyOf header l ≠ [] := by rw [hkeyeq]; exact hkey
    have hhas := fedMap_fold_hasGrp header lines [] l hl hkey'
    refine ⟨grpOf (fedMapOf header lines) (fedKeyOf header l), ?_, ?_⟩
    · rw [← hkeyeq l]
      exact mem_of_hasGrp _ _ hhas
    · show l ∈ grpOf (lines.foldl (fedStep header) []) (fedKeyOf header l)
      rw [fedMap_fold_grp header lines [] _ hkey', grpOf_nil, List.nil_append]
      exact List.mem_filter.mpr ⟨hl, by simp⟩

/-- Witness for claim C10 at a concrete header with no `'Fed'`. -/
theorem partitioner_no_fed_witness :
    (∀ line, fedKeyOf "ID  Name".data line = jsTrim (line.take 2)) ∧
    (∀ kg ∈ fedMapOf "ID  Name".data ["ab rest".data, "   blank".data],
      kg.1 ≠ [] ∧ kg.2 = ["ab rest".data, "   blank".data].filter
        (fun l => jsTrim (l.take 2) = kg.1)) ∧
    (∀ l ∈ ["ab rest".data, "   blank".data], jsTrim (l.take 2) ≠ [] →
      ∃ g, (jsTrim (l.take 2), g) ∈
        fedMapOf "ID  Name".data ["ab rest".data, "   blank".data] ∧ l ∈ g) :=
  partitioner_no_fed "ID  Name".data ["ab rest".data, "   blank".data] (by decide)

/-! ## CSV round trip (claim C5) -/

theorem csvParseRowF_nil (fuel : Nat) : csvParseRowF (fuel + 1) [] = [[]] := rfl

theorem csvParseRowF_irrel :
    ∀ (fuel fuel' : Nat) (l : JStr), l.length < fuel → l.length < fuel' →
    csvParseRowF fuel l = csvParseRowF fuel' l := by
  intro fuel
  induction fuel with
  | zero => intro fuel' l hl _; exact absurd hl (by omega)
  | succ n ih =>
    intro fuel' l hl hl'
    cases l with
    | nil =>
      cases fuel' with
      | zero => exact absurd hl' (by omega)
      | succ m => rfl
    | cons c r =>
      cases fuel' with
      | zero => exact absurd hl' (by omega)
      | succ m =>
        have hr : r.length < n := by simpa using hl
        have hr' : r.length < m := by simpa using hl'
        simp only [csvParseRowF]
        by_cases hc : c = '"'
        · rw [if_pos hc, if_pos hc]
          by_cases hhd : (csvParseQ r).2.head? = some ','
          · rw [if_pos hhd, if_pos hhd]
            have h1 : (csvParseQ r).2.length ≤ r.length := csvParseQ_snd_length_le r
            have h2 : (csvParseQ r).2.tail.length ≤ (csvParseQ r).2.length :=
              (List.tail_sublist _).length_le
            rw [ih m (csvParseQ r).2.tail (by omega) (by omega)]
          · rw [if_neg hhd, if_neg hhd]
        · rw [if_neg hc, if_neg hc]
          by_cases hrem : (c :: r).dropWhile (fun x => !(x = ',')) = []
          · rw [if_pos hrem, if_pos hrem]
          · rw [if_neg hrem, if_neg hrem]
            have h1 : ((c :: r).dropWhile (fun x => !(x = ','))).length ≤ r.length + 1 := by
              have hs : ((c :: r).dropWhile (fun x => !(x = ','))).length ≤
                  (c :: r).length := (List.dropWhile_sublist _).length_le
              simpa using hs
            have h2 : ((c :: r).dropWhile (fun x => !(x = ','))).tail.length <
                ((c :: r).dropWhile (fun x => !(x = ','))).length := by
              have hlen : ((c :: r).dropWhile (fun x => !(x = ','))).length ≠ 0 :=
                fun h0 => hrem (List.length_eq_zero.mp h0)
              have := List.length_tail ((c :: r).dropWhile (fun x => !(x = ',')))
              omega
            rw [ih m ((c :: r).dropWhile (fun x => !(x = ','))).tail
              (by omega) (by omega)]

theorem csvParseRow_cons (c : Char) (r : JStr) :
    csvParseRow (c :: r) =
      if c = '"' then
        if (csvParseQ r).2.head? = some ',' then
          (csvParseQ r).1 :: csvParseRow (csvParseQ r).2.tail
        else [(csvParseQ r).1]
      else
        if (c :: r).dropWhile (fun x => !(x = ',')) = [] then
          [(c :: r).takeWhile (fun x => !(x = ','))]
        else
          (c :: r).takeWhile (fun x => !(x = ',')) ::
            csvParseRow ((c :: r).dropWhile (fun x => !(x = ','))).tail := by
  show csvParseRowF (r.length + 1 + 1) (c :: r) = _
  simp only [csvParseRowF, csvParseRow]
  by_cases hc : c = '"'
  · rw [if_pos hc, if_pos hc]
    by_cases hhd : (csvParseQ r).2.head? = some ','
    · rw [if_pos hhd, if_pos hhd]
      have h1 : (csvParseQ r).2.length ≤ r.length := csvParseQ_snd_length_le r
      have h2 : (csvParseQ r).2.tail.length ≤ (csvParseQ r).2.length :=
        (List.tail_sublist _).length_le
      rw [csvParseRowF_irrel (r.length + 1) ((csvParseQ r).2.tail.length + 1)
        (csvParseQ r).2.tail (by omega) (by omega)]
    · rw [if_neg hhd, if_neg hhd]
  · rw [if_neg hc, if_neg hc]
    by_cases hrem : (c :: r).dropWhile (fun x => !(x = ',')) = []
    · rw [if_pos hrem, if_pos hrem]
    · rw [if_neg hrem, if_neg hrem]
      have h1 : ((c :: r).dropWhile (fun x => !(x = ','))).length ≤ r.length + 1 := by
        have hs : ((c :: r).dropWhile (fun x => !(x = ','))).length ≤
            (c :: r).length := (List.dropWhile_sublist _).length_le
        simpa using hs
      have h2 : ((c :: r).dropWhile (fun x => !(x = ','))).tail.length ≤
          ((c :: r).dropWhile (fun x => !(x = ','))).length - 1 := by
        have := List.length_tail ((c :: r).dropWhile (fun x => !(x = ',')))
        omega
      have hlen : ((c :: r).dropWhile (fun x => !(x = ','))).length ≠ 0 :=
        fun h0 => hrem (List.length_eq_zero.mp h0)
      rw [csvParseRowF_irrel (r.length + 1)
        (((c :: r).dropWhile (fun x => !(x = ','))).tail.length + 1)
        ((c :: r).dropWhile (fun x => !(x = ','))).tail (by omega) (by omega)]

theorem not_mem_of_contains_false :
    ∀ (v : JStr) (c : Char), v.contains c = false → ∀ x ∈ v, ¬ x = c := by
  intro v c h x hx
  intro hxc
  subst hxc
  rw [List.contains_eq_any_beq] at h
  have hany : v.any (fun y => x == y) = true :=
    List.any_eq_true.mpr ⟨x, hx, by simp⟩
  rw [hany] at h
  exact absurd h (by simp)

theorem takeWhile_comma_append (rest : JStr) :
    ∀ v : JStr, (∀ x ∈ v, ¬ x = ',') →
    (v ++ ',' :: rest).takeWhile (fun x => !(x = ',')) = v ∧
    (v ++ ',' :: rest).dropWhile (fun x => !(x = ',')) = ',' :: rest := by
  intro v
  induction v with
  | nil =>
    intro _
    constructor
    · rw [List.nil_append, List.takeWhile_cons_of_neg (by simp)]
    · rw [List.nil_append, List.dropWhile_cons_of_neg (by simp)]
  | cons a t ih =>
    intro hall
    have ha : ¬ a = ',' := hall a (by simp)
    have ht := ih (fun x hx => hall x (List.mem_cons_of_mem a hx))
    constructor
    · rw [List.cons_append, List.takeWhile_cons_of_pos (by simpa using ha), ht.1]
    · rw [List.cons_append, List.dropWhile_cons_of_pos (by simpa using ha), ht.2]

theorem takeWhile_comma_all (v : JStr) (hall : ∀ x ∈ v, ¬ x = ',') :
    v.takeWhile (fun x => !(x = ',')) = v ∧
    v.dropWhile (fun x => !(x = ',')) = [] := by
  have hd : v.dropWhile (fun x => !(x = ',')) = [] :=
    List.dropWhile_eq_nil_iff.mpr (fun x hx => by simpa using hall x hx)
  refine ⟨?_, hd⟩
  have := List.takeWhile_append_dropWhile (fun x : Char => !(x = ',')) v
  rwa [hd, List.append_nil] at this

theorem csvParseQ_quote_quote (r : JStr) :
    csvParseQ ('"' :: '"' :: r) = ('"' :: (csvParseQ r).1, (csvParseQ r).2) := by
  simp [csvParseQ]

theorem csvParseQ_quote_other (d : Char) (r : JStr) (hd : ¬ d = '"') :
    csvParseQ ('"' :: d :: r) = ([], d :: r) := by
  simp [csvParseQ, hd]

theorem csvParseQ_other (c : Char) (l : JStr) (hc : ¬ c = '"') (hl : l ≠ []) :
    csvParseQ (c :: l) = (c :: (csvParseQ l).1, (csvParseQ l).2) := by
  cases l with
  | nil => exact absurd rfl hl
  | cons d r => simp [csvParseQ, hc]

theorem csvParseQ_dupQuotes :
    ∀ (v rest : JStr), rest.head? ≠ some '"' →
    csvParseQ (dupQuotes v ++ '"' :: rest) = (v, rest) := by
  intro v
  induction v with
  | nil =>
    intro rest hrest
    show csvParseQ ('"' :: rest) = ([], rest)
    cases rest with
    | nil => rfl
    | cons d r' =>
      have hd : ¬ d = '"' := fun h => hrest (by rw [h]; rfl)
      exact csvParseQ_quote_other d r' hd
  | cons a t ih =>
    intro rest hrest
    by_cases ha : a = '"'
    · subst ha
      show csvParseQ ('"' :: '"' :: (dupQuotes t ++ '"' :: rest)) = _
      rw [csvParseQ_quote_quote, ih rest hrest]
    · rw [show dupQuotes (a :: t) = a :: dupQuotes t from by
        simp [dupQuotes, ha], List.cons_append,
        csvParseQ_other a _ ha (by simp), ih rest hrest]

theorem dupQuotes_cons (a : Char) (t : JStr) :
    dupQuotes (a :: t) =
      if a = '"' then '"' :: '"' :: dupQuotes t else a :: dupQuotes t := rfl

theorem csvParseRow_escape_comma (v rest : JStr) :
    csvParseRow (csvEscape v ++ ',' :: rest) = v :: csvParseRow rest := by
  by_cases hq : (v.contains ',' || v.contains '"' || v.contains '\n') = true
  · rw [csvEscape, if_pos hq]
    have : ('"' :: (dupQuotes v ++ ['"'])) ++ ',' :: rest =
        '"' :: (dupQuotes v ++ '"' :: (',' :: rest)) := by simp
    rw [this, csvParseRow_cons, if_pos rfl,
      csvParseQ_dupQuotes v (',' :: rest) (by simp)]
    simp
  · rw [csvEscape, if_neg hq]
    simp only [Bool.or_eq_true, not_or] at hq
    obtain ⟨⟨hc, hqq⟩, _⟩ := hq
    have hallc := not_mem_of_contains_false v ',' (by simpa using hc)
    have htd := takeWhile_comma_append rest v hallc
    cases v with
    | nil =>
      rw [List.nil_append, csvParseRow_cons, if_neg (by decide),
        if_neg (by rw [List.dropWhile_cons_of_neg (by simp)]; simp),
        List.dropWhile_cons_of_neg (by simp),
        List.takeWhile_cons_of_neg (by simp)]
      rfl
    | cons a t =>
      have ha : ¬ a = '"' := by
        have := not_mem_of_contains_false (a :: t) '"' (by simpa using hqq)
        exact this a (by simp)
      rw [List.cons_append, csvParseRow_cons, if_neg ha]
      have htd1 : ((a :: t) ++ ',' :: rest).takeWhile (fun x => !(x = ',')) =
          a :: t := htd.1
      have htd2 : ((a :: t) ++ ',' :: rest).dropWhile (fun x => !(x = ',')) =
          ',' :: rest := htd.2
      rw [List.cons_append] at htd1 htd2
      rw [if_neg (by rw [htd2]; simp), htd1, htd2]
      rfl

theorem csvParseRow_escape_single (v : JStr) :
    csvParseRow (csvEscape v) = [v] := by
  by_cases hq : (v.contains ',' || v.contains '"' || v.contains '\n') = true
  · rw [csvEscape, if_pos hq]
    have : ('"' :: (dupQuotes v ++ ['"'])) = '"' :: (dupQuotes v ++ '"' :: []) := rfl
    rw [this, csvParseRow_cons, if_pos rfl,
      csvParseQ_dupQuotes v [] (by simp)]
    simp
  · rw [csvEscape, if_neg hq]
    simp only [Bool.or_eq_true, not_or] at hq
    obtain ⟨⟨hc2, hqq⟩, _⟩ := hq
    have hallc := not_mem_of_contains_false v ',' (by simpa using hc2)
    have htd := takeWhile_comma_all v hallc
    cases v with
    | nil => rfl
    | cons a t =>
      have ha : ¬ a = '"' :=
        not_mem_of_contains_false (a :: t) '"' (by simpa using hqq) a (by simp)
      rw [csvParseRow_cons, if_neg ha, if_pos htd.2, htd.1]

theorem csvParseRow_emitRow :
    ∀ vals : List JStr, vals ≠ [] → csvParseRow (csvEmitRow vals) = vals := by
  intro vals
  induction vals with
  | nil => intro h; exact absurd rfl h
  | cons v vs ih =>
    intro _
    cases vs with
    | nil =>
      show csvParseRow (joinComma [csvEscape v]) = [v]
      exact csvParseRow_escape_single v
    | cons v2 vs2 =>
      have hemit : csvEmitRow (v :: v2 :: vs2) =
          csvEscape v ++ ',' :: csvEmitRow (v2 :: vs2) := rfl
      rw [hemit, csvParseRow_escape_comma, ih (by simp)]

theorem objSet_ne_nil (o : Record) (k v : JStr) : objSet o k v ≠ [] := by
  unfold objSet
  by_cases h : o.any (fun p => p.1 = k)
  · rw [if_pos h]
    intro hmap
    rw [List.map_eq_nil_iff] at hmap
    rw [hmap] at h
    exact absurd h (by simp)
  · rw [if_neg h]
    simp

theorem decodeCell_ne_nil (obj : Record) (lbl v : JStr) :
    decodeCell obj lbl v ≠ [] := by
  unfold decodeCell
  split_ifs <;> apply objSet_ne_nil

theorem decodeLine_foldl_ne_nil :
    ∀ (cols : List (JStr × Nat × Nat)) (line : JStr) (obj : Record), obj ≠ [] →
    cols.foldl (fun o col => decodeCell o col.1
      (jsTrim (jsSubstringN line col.2.1 col.2.2))) obj ≠ [] := by
  intro cols
  induction cols with
  | nil => intro line obj h; exact h
  | cons c cs ih =>
    intro line obj _
    rw [List.foldl_cons]
    exact ih line _ (decodeCell_ne_nil obj c.1 _)

theorem decodeLine_ne_nil (layout : List (JStr × Nat × Nat)) (line : JStr)
    (h : layout ≠ []) : decodeLine layout line ≠ [] := by
  cases layout with
  | nil => exact absurd rfl h
  | cons c cs =>
    unfold decodeLine
    rw [List.foldl_cons]
    exact decodeLine_foldl_ne_nil cs line _ (decodeCell_ne_nil [] c.1 _)

theorem objSet_map_fst (o : Record) (k v : JStr) :
    (objSet o k v).map (fun p => p.1) =
      if o.any (fun p => p.1 = k) then o.map (fun p => p.1)
      else o.map (fun p => p.1) ++ [k] := by
  by_cases h : o.any (fun p => p.1 = k)
  · rw [if_pos h]
    unfold objSet
    rw [if_pos h, List.map_map]
    apply List.map_congr_left
    intro q _
    by_cases hq : q.1 = k
    · simp [Function.comp, hq]
    · simp [Function.comp, hq]
  · rw [if_neg h]
    unfold objSet
    rw [if_neg h]
    simp

theorem nodup_objSet (o : Record) (k v : JStr)
    (h : (o.map (fun p => p.1)).Nodup) :
    ((objSet o k v).map (fun p => p.1)).Nodup := by
  rw [objSet_map_fst]
  by_cases hk : o.any (fun p => p.1 = k)
  · rwa [if_pos hk]
  · rw [if_neg hk, List.nodup_append]
    refine ⟨h, List.nodup_singleton k, ?_⟩
    intro x hx hx'
    simp only [List.mem_singleton] at hx'
    subst hx'
    obtain ⟨q, hq, hqk⟩ := List.mem_map.mp hx
    exact hk (List.any_eq_true.mpr ⟨q, hq, by simp [hqk]⟩)

theorem nodup_decodeCell (obj : Record) (lbl v : JStr)
    (h : (obj.map (fun p => p.1)).Nodup) :
    ((decodeCell obj lbl v).map (fun p => p.1)).Nodup := by
  unfold decodeCell
  split_ifs <;> repeat' apply nodup_objSet
  all_goals exact h

theorem decodeLine_nodup (layout : List (JStr × Nat × Nat)) (line : JStr) :
    ((decodeLine layout line).map (fun p => p.1)).Nodup := by
  unfold decodeLine
  have aux : ∀ (cols : List (JStr × Nat × Nat)) (obj : Record),
      (obj.map (fun p => p.1)).Nodup →
      ((cols.foldl (fun o col => decodeCell o col.1
        (jsTrim (jsSubstringN line col.2.1 col.2.2))) obj).map (fun p => p.1)).Nodup := by
    intro cols
    induction cols with
    | nil => intro obj h; exact h
    | cons c cs ih =>
      intro obj h
      rw [List.foldl_cons]
      exact ih _ (nodup_decodeCell obj c.1 _ h)
  exact aux layout [] (by simp)

theorem objGetD_keys :
    ∀ r : Record, (r.map (fun p => p.1)).Nodup →
    (r.map (fun p => p.1)).map (fun c => objGetD r c []) = r.map (fun p => p.2) := by
  intro r
  induction r with
  | nil => intro _; rfl
  | cons p t ih =>
    intro hnd
    rw [List.map_cons, List.map_cons, List.map_cons]
    rw [List.map_cons, List.nodup_cons] at hnd
    congr 1
    · unfold objGetD
      rw [List.find?_cons_of_pos _ (by simp)]
    · rw [← ih hnd.2]
      apply List.map_congr_left
      intro c hc
      have hpc : ¬ p.1 = c := fun h => hnd.1 (h ▸ hc)
      unfold objGetD
      rw [List.find?_cons_of_neg _ (by simpa using hpc)]

/-- Claim C5: a Record produced by the Row Decoder, serialized by the
CSV emitter (quoting values containing a comma, quote or newline, with
internal quotes doubled) and re-split on commas honoring that quoting,
yields back exactly the record's field values. -/
theorem csv_roundtrip (layout : List (JStr × Nat × Nat)) (line : JStr)
    (h : layout ≠ []) :
    csvParseRow (csvEmitRow
      (((decodeLine layout line).map (fun p => p.1)).map
        (fun c => objGetD (decodeLine layout line) c []))) =
      (decodeLine layout line).map (fun p => p.2) := by
  rw [objGetD_keys (decodeLine layout line) (decodeLine_nodup layout line)]
  apply csvParseRow_emitRow
  intro hmap
  exact decodeLine_ne_nil layout line h (List.map_eq_nil_iff.mp hmap)

/-- Witness for claim C5 at a concrete Layout and line. -/
theorem csv_roundtrip_witness :
    csvParseRow (csvEmitRow
      (((decodeLine [("Name".data, 0, 9)] "Al,ice \"B".data).map (fun p => p.1)).map
        (fun c => objGetD (decodeLine [("Name".data, 0, 9)] "Al,ice \"B".data) c []))) =
      (decodeLine [("Name".data, 0, 9)] "Al,ice \"B".data).map (fun p => p.2) :=
  csv_roundtrip [("Name".data, 0, 9)] "Al,ice \"B".data (by decide)

/-! ## Parquet failure isolation (claim C7) -/

theorem coreView_processGroup (header rt : JStr) (fedLines : List JStr)
    (res res' : Except JStr Nat) :
    coreView (processGroup header rt fedLines res) =
    coreView (processGroup header rt fedLines res') := by
  cases res <;> cases res' <;> rfl

theorem parquetSize_error (header rt : JStr) (fedLines : List JStr) (e : JStr) :
    (processGroup header rt fedLines (Except.error e)).summary.parquetSize =
      "0 B" := by
  simp only [processGroup]
  split <;> rfl

/-- Claim C7: a Parquet failure for a group is isolated.  Under any two
Parquet oracles (in particular, one that always throws): every group's
TXT, JSON, CSV artifacts, their zip entries and the non-Parquet summary
fields are identical; a summary entry is still recorded for every
collected group; a failed write records size `'0 B'`; and the run still
reaches listing-page generation with the same sorted key list. -/
theorem parquet_failure_isolated (header rt : JStr) (lines : List JStr)
    (oracle oracle' : JStr → Except JStr Nat) :
    (runDataset header rt lines oracle).map (fun p => (p.1, coreView p.2)) =
      (runDataset header rt lines oracle').map (fun p => (p.1, coreView p.2)) ∧
    (runDataset header rt lines oracle).map (fun p => p.1) =
      (fedMapOf header lines).map (fun p => p.1) ∧
    (∀ fedLines e, (processGroup header rt fedLines
      (Except.error e)).summary.parquetSize = "0 B") ∧
    indexFeds ((runDataset header rt lines oracle).map
        (fun p => (p.1, p.2.summary))) =
      indexFeds ((runDataset header rt lines oracle').map
        (fun p => (p.1, p.2.summary))) := by
  refine ⟨?_, ?_, fun fedLines e => parquetSize_error header rt fedLines e, ?_⟩
  · unfold runDataset
    rw [List.map_map, List.map_map]
    apply List.map_congr_left
    intro g _
    show (g.1, coreView (processGroup header rt g.2 (oracle g.1))) = _
    rw [coreView_processGroup header rt g.2 (oracle g.1) (oracle' g.1)]
    rfl
  · unfold runDataset
    rw [List.map_map]
    rfl
  · unfold indexFeds
    congr 1
    unfold runDataset
    rw [List.map_map, List.map_map, List.map_map, List.map_map]
    rfl

/-! ## Lexicographic listing order (claim C8) -/

/-- Claim C8: the listing page visits groups in lexicographic key order,
applied at emission time: for any two collected summary tables whose key
lists are permutations of one another (any first-appearance order), the
emitted key order is identical, sorted, and a permutation of the
collected keys. -/
theorem index_lex_order (s₁ s₂ : List (JStr × SummaryEntry))
    (h : List.Perm (s₁.map (fun p => p.1)) (s₂.map (fun p => p.1))) :
    indexFeds s₁ = indexFeds s₂ ∧
    List.Sorted (· ≤ ·) (indexFeds s₁) ∧
    List.Perm (indexFeds s₁) (s₁.map (fun p => p.1)) := by
  unfold indexFeds
  have hs₁ := List.sorted_insertionSort (fun a b : JStr => a ≤ b)
    (s₁.map (fun p => p.1))
  have hs₂ := List.sorted_insertionSort (fun a b : JStr => a ≤ b)
    (s₂.map (fun p => p.1))
  have hp₁ := List.perm_insertionSort (fun a b : JStr => a ≤ b)
    (s₁.map (fun p => p.1))
  have hp₂ := List.perm_insertionSort (fun a b : JStr => a ≤ b)
    (s₂.map (fun p => p.1))
  refine ⟨?_, hs₁, hp₁⟩
  exact List.eq_of_perm_of_sorted (hp₁.trans (h.trans hp₂.symm)) hs₁ hs₂

/-- Witness for claim C8: two collection orders of the same two keys
emit the same sorted listing. -/
theorem index_lex_order_witness :
    indexFeds [("b".data, SummaryEntry.mk 0 "0 B" "0 B" "0 B" "0 B" "0 B" "0 B" "0 B"),
        ("a".data, SummaryEntry.mk 0 "0 B" "0 B" "0 B" "0 B" "0 B" "0 B" "0 B")] =
      indexFeds [("a".data, SummaryEntry.mk 0 "0 B" "0 B" "0 B" "0 B" "0 B" "0 B" "0 B"),
        ("b".data, SummaryEntry.mk 0 "0 B" "0 B" "0 B" "0 B" "0 B" "0 B" "0 B")] ∧
    List.Sorted (· ≤ ·) (indexFeds
      [("b".data, SummaryEntry.mk 0 "0 B" "0 B" "0 B" "0 B" "0 B" "0 B" "0 B"),
        ("a".data, SummaryEntry.mk 0 "0 B" "0 B" "0 B" "0 B" "0 B" "0 B" "0 B")]) ∧
    List.Perm (indexFeds
      [("b".data, SummaryEntry.mk 0 "0 B" "0 B" "0 B" "0 B" "0 B" "0 B" "0 B"),
        ("a".data, SummaryEntry.mk 0 "0 B" "0 B" "0 B" "0 B" "0 B" "0 B" "0 B")])
      ["b".data, "a".data] :=
  index_lex_order
    [("b".data, SummaryEntry.mk 0 "0 B" "0 B" "0 B" "0 B" "0 B" "0 B" "0 B"),
      ("a".data, SummaryEntry.mk 0 "0 B" "0 B" "0 B" "0 B" "0 B" "0 B" "0 B")]
    [("a".data, SummaryEntry.mk 0 "0 B" "0 B" "0 B" "0 B" "0 B" "0 B" "0 B"),
      ("b".data, SummaryEntry.mk 0 "0 B" "0 B" "0 B" "0 B" "0 B" "0 B" "0 B")]
    (List.Perm.swap "a".data "b".data [])

/-! ## Column Layout Extractor vs the spec tokenizer (claim C1) -/

theorem grabTok_cons_ne (c : Char) (r : JStr) (hc : ¬ c = ' ') :
    grabTok (c :: r) = (c :: (grabTok r).1, (grabTok r).2) := by
  cases r with
  | nil => rfl
  | cons d r' =>
    simp only [grabTok]
    rw [if_neg (by tauto)]

theorem extendTok_cons (c : Char) (r : JStr) :
    extendTok (c :: r) =
      if lookahead2 (c :: r) then some 0
      else if !jsWs c || c = ' ' then (extendTok r).map (· + 1) else none := rfl

theorem extendTok_grabTok :
    ∀ r : JStr, (∀ c ∈ r, jsWs c = true → c = ' ') →
    extendTok r = some (grabTok r).1.length ∧
    (grabTok r).1 = r.take (grabTok r).1.length ∧
    (grabTok r).2 = r.drop (grabTok r).1.length := by
  intro r
  induction r with
  | nil => intro _; exact ⟨rfl, rfl, rfl⟩
  | cons c t iht =>
    intro hso
    cases t with
    | nil =>
      have hmem : (!jsWs c || c = ' ') = true := by
        by_cases hws : jsWs c = true
        · simp [hso c (by simp) hws]
        · simp [hws]
      refine ⟨?_, rfl, rfl⟩
      rw [extendTok_cons, if_neg (by simp [lookahead2]), if_pos hmem]
      rfl
    | cons d t' =>
      by_cases hcd : c = ' ' ∧ d = ' '
      · have hla : lookahead2 (c :: d :: t') = true := by
          simp [lookahead2, hcd.1, hcd.2, jsWs]
        have hgrab : grabTok (c :: d :: t') = ([], c :: d :: t') := by
          simp only [grabTok]
          rw [if_pos hcd]
        rw [hgrab]
        refine ⟨?_, rfl, rfl⟩
        rw [extendTok_cons, if_pos (by simp [hla])]
        rfl
      · have hla : lookahead2 (c :: d :: t') = false := by
          simp only [lookahead2]
          by_cases hwc : jsWs c = true
          · by_cases hwd : jsWs d = true
            · exact absurd ⟨hso c (by simp) hwc, hso d (by simp) hwd⟩ hcd
            · simp [hwd]
          · simp [hwc]
        have hmem : (!jsWs c || c = ' ') = true := by
          by_cases hws : jsWs c = true
          · simp [hso c (by simp) hws]
          · simp [hws]
        have iht' := iht (fun x hx hw => hso x (List.mem_cons_of_mem c hx) hw)
        have hgrab : grabTok (c :: d :: t') =
            (c :: (grabTok (d :: t')).1, (grabTok (d :: t')).2) := by
          simp only [grabTok]
          rw [if_neg hcd]
        rw [hgrab]
        refine ⟨?_, ?_, ?_⟩
        · rw [extendTok_cons, if_neg (by simp [hla]), if_pos hmem, iht'.1]
          simp [List.length_cons]
        · simp only [List.length_cons, List.take_succ_cons]
          rw [← iht'.2.1]
        · simp only [List.length_cons, List.drop_succ_cons]
          rw [← iht'.2.2]

theorem colScan_eq_refTokens :
    ∀ (N : Nat) (l : JStr), l.length ≤ N → (∀ c ∈ l, jsWs c = true → c = ' ') →
    ∀ pos, colScan l pos = refTokens l pos := by
  intro N
  induction N with
  | zero =>
    intro l hN _ pos
    have : l = [] := List.length_eq_zero.mp (Nat.le_zero.mp hN)
    subst this
    rfl
  | succ N ih =>
    intro l hN hso pos
    cases l with
    | nil => rfl
    | cons c r =>
      have hr : r.length ≤ N := by simpa using hN
      have hsor : ∀ x ∈ r, jsWs x = true → x = ' ' :=
        fun x hx hw => hso x (List.mem_cons_of_mem c hx) hw
      rw [colScan_cons, refTokens_cons]
      by_cases hc : c = ' '
      · rw [if_pos hc, if_pos (by simp [hc, jsWs])]
        exact ih r hr hsor (pos + 1)
      · have hwc : jsWs c = false := by
          by_cases hws : jsWs c = true
          · exact absurd (hso c (by simp) hws) hc
          · simpa using hws
        rw [if_neg hc, if_neg (by simp [hwc])]
        obtain ⟨he, htake, hdrop⟩ := extendTok_grabTok r hsor
        rw [he]
        have hg := grabTok_cons_ne c r hc
        rw [hg]
        have htok : c :: r.take (grabTok r).1.length = c :: (grabTok r).1 := by
          rw [← htake]
        simp only [htok]
        have hdrop' : r.drop (grabTok r).1.length = (grabTok r).2 := hdrop.symm
        rw [hdrop']
        have hlen : pos + 1 + (grabTok r).1.length =
            pos + (c :: (grabTok r).1).length := by
          simp [List.length_cons]
          omega
        rw [hlen,
          ih (grabTok r).2 (by
            have := grabTok_snd_length_le r
            omega) (fun x hx hw => hsor x (by
              have hsub := List.IsSuffix.subset ⟨(grabTok r).1, grabTok_append r⟩
              exact hsub hx) hw) (pos + (c :: (grabTok r).1).length)]

theorem colScan_snd_bounds :
    ∀ (N : Nat) (l : JStr), l.length ≤ N → ∀ (pos : Nat) (p : JStr × Nat),
    p ∈ colScan l pos → pos ≤ p.2 ∧ p.2 < pos + l.length := by
  intro N
  induction N with
  | zero =>
    intro l hN pos p hp
    have : l = [] := List.length_eq_zero.mp (Nat.le_zero.mp hN)
    subst this
    exact absurd hp (by simp [colScan, colScanF])
  | succ N ih =>
    intro l hN pos p hp
    cases l with
    | nil => exact absurd hp (by simp [colScan, colScanF])
    | cons c r =>
      have hr : r.length ≤ N := by simpa using hN
      rw [colScan_cons] at hp
      by_cases hc : jsWs c = true
      · rw [if_pos hc] at hp
        have := ih r hr (pos + 1) p hp
        simp only [List.length_cons]
        omega
      · rw [if_neg hc] at hp
        rcases he : extendTok r with _ | k
        · rw [he] at hp
          have := ih r hr (pos + 1) p hp
          simp only [List.length_cons]
          omega
        · rw [he] at hp
          rcases List.mem_cons.mp hp with rfl | hp'
          · simp only [List.length_cons]
            omega
          · have hdk : (r.drop k).length ≤ N := by
              have := List.length_drop k r
              omega
            have := ih (r.drop k) hdk (pos + 1 + k) p hp'
            have hld := List.length_drop k r
            simp only [List.length_cons]
            omega

theorem colScan_chain :
    ∀ (N : Nat) (l : JStr), l.length ≤ N → ∀ pos : Nat,
    List.Chain' (fun a b : JStr × Nat => a.2 < b.2) (colScan l pos) := by
  intro N
  induction N with
  | zero =>
    intro l hN pos
    have : l = [] := List.length_eq_zero.mp (Nat.le_zero.mp hN)
    subst this
    simp [colScan, colScanF]
  | succ N ih =>
    intro l hN pos
    cases l with
    | nil => simp [colScan, colScanF]
    | cons c r =>
      have hr : r.length ≤ N := by simpa using hN
      rw [colScan_cons]
      by_cases hc : jsWs c = true
      · rw [if_pos hc]
        exact ih r hr (pos + 1)
      · rw [if_neg hc]
        rcases he : extendTok r with _ | k
        · exact ih r hr (pos + 1)
        · have hdk : (r.drop k).length ≤ N := by
            have := List.length_drop k r
            omega
          rw [List.chain'_cons']
          refine ⟨?_, ih (r.drop k) hdk (pos + 1 + k)⟩
          intro b hb
          have hbmem : b ∈ colScan (r.drop k) (pos + 1 + k) :=
            List.mem_of_mem_head? hb
          have := colScan_snd_bounds N (r.drop k) hdk (pos + 1 + k) b hbmem
          show pos < b.2
          omega

/-- Claim C1, counterexample: the regex separator class is `\s` (any
whitespace), not the space character, so the header `"A\tB  C"` — which
does contain a run of two spaces — loses the token `A` entirely: the
code's labels are `["B", "C"]` while the maximal non-separator tokens
(separators being runs of two or more spaces) are `["A\tB", "C"]`. -/
theorem columnLayout_counterexample :
    hasDoubleSpace "A\tB  C".data = true ∧
    columnsOf "A\tB  C".data ≠
      (refTokens "A\tB  C".data 0).map (fun p => p.1) := by
  constructor
  · decide
  · decide

/-- Claim C1 as amended: for every header containing a run of two or
more spaces and no whitespace other than plain spaces, the scan agrees
with the spec tokenizer exactly (trimmed maximal non-separator labels
with their start offsets), the position list with the appended header
length is strictly ascending, and its final entry is the header length. -/
theorem columnLayout_amended (header : JStr)
    (_hds : hasDoubleSpace header = true)
    (hso : ∀ c ∈ header, jsWs c = true → c = ' ') :
    colScan header 0 = refTokens header 0 ∧
    List.Chain' (· < ·) (colPositionsOf header) ∧
    (colPositionsOf header).getLast? = some header.length := by
  refine ⟨colScan_eq_refTokens header.length header (Nat.le_refl _) hso 0, ?_, ?_⟩
  · unfold colPositionsOf
    rw [List.chain'_append]
    refine ⟨?_, List.chain'_singleton _, ?_⟩
    · rw [List.chain'_map]
      exact colScan_chain header.length header (Nat.le_refl _) 0
    · intro x hx y hy
      simp only [List.head?_cons, Option.mem_def, Option.some.injEq] at hy
      subst hy
      obtain ⟨p, hp, hpx⟩ := by
        have hx' := List.mem_of_mem_getLast? hx
        exact List.mem_map.mp hx'
      have := colScan_snd_bounds header.length header (Nat.le_refl _) 0 p hp
      omega
  · unfold colPositionsOf
    exact List.getLast?_concat _

/-- Witness for the amended claim C1 at the spec's example header. -/
theorem columnLayout_amended_witness :
    colScan "Fed Sex Tit   Name".data 0 = refTokens "Fed Sex Tit   Name".data 0 ∧
    List.Chain' (· < ·) (colPositionsOf "Fed Sex Tit   Name".data) ∧
    (colPositionsOf "Fed Sex Tit   Name".data).getLast? =
      some "Fed Sex Tit   Name".data.length :=
  columnLayout_amended "Fed Sex Tit   Name".data (by decide) (by decide)
end FideRatings
